import Mathlib

/-!
Verification of the document-assembly and schema-normalization engine of the
`nestjs-openapi-next` repository.

The development shallowly embeds the relevant TypeScript functions:

* `isOas31OrAbove` (src/lib/utils/is-oas31-or-above.ts),
* `normalizeNullableSchema`, `appendNullOption`, `isReferenceObject`
  (swagger-module, src/unnamed/part_002, lines 42-201),
* `SwaggerTransformer.normalizePaths` (src/lib/swagger-transformer.ts),
* `SwaggerModule.mergeTags` (src/unnamed/part_002, lines 449-498),
* `buildXTagGroups` (src/lib/utils/build-x-tag-groups.util.ts, lines 80-163).

JavaScript-specific behavior (truthiness, `Number(...)` coercion,
`String.prototype.split`, nullish coalescing, ordered objects and `Map`s)
is modelled explicitly.  Objects are modelled as insertion-ordered
association lists, absent fields as `Option.none`.
-/

/-- Characters treated as whitespace by `String.prototype.trim`
(restricted to the ASCII whitespace this code base can encounter). -/
def jsIsWhitespace (c : Char) : Bool :=
  c = ' ' || c = '\t' || c = '\n' || c = '\r'

/-- Model of `String.prototype.trim`. -/
def jsTrim (s : String) : String :=
  String.mk (((s.data.dropWhile jsIsWhitespace).reverse.dropWhile jsIsWhitespace).reverse)

/-- Helper for `jsSplitOnDot`: split a character list at every `'.'`. -/
def splitDotAux : List Char → List Char → List (List Char)
  | [], acc => [acc.reverse]
  | c :: rest, acc =>
    if c = '.' then acc.reverse :: splitDotAux rest [] else splitDotAux rest (c :: acc)

/-- Model of `str.split('.')` from JavaScript: `''.split('.') = ['']`,
`'a.'.split('.') = ['a','']`, etc. -/
def jsSplitOnDot (s : String) : List String :=
  (splitDotAux s.data []).map String.mk

/-- The value space of the JavaScript `Number(...)` coercion as used by
`isOas31OrAbove`: `NaN`, the two infinities, or an integer.  The strings this
function receives are pieces of a version string split at `'.'`, so they never
contain a decimal point; the model covers the empty string (which coerces to
`0`), optionally signed decimal digit strings, and the `Infinity` spellings.
Exotic forms (hex, exponent notation) are mapped to `NaN`. -/
inductive JsNum where
  | nan
  | posInf
  | negInf
  | int (n : Int)
deriving DecidableEq

/-- Digit-string value. -/
def digitsToNat (l : List Char) : Nat :=
  l.foldl (fun a c => a * 10 + (c.toNat - '0'.toNat)) 0

/-- Model of JavaScript `Number(str)` for the string shapes relevant here
(see `JsNum`). -/
def jsStringToNumber (s : String) : JsNum :=
  let t := jsTrim s
  if t = "" then JsNum.int 0
  else if t = "Infinity" || t = "+Infinity" then JsNum.posInf
  else if t = "-Infinity" then JsNum.negInf
  else
    let (sgn, ds) :=
      match t.data with
      | '+' :: r => ((1 : Int), r)
      | '-' :: r => ((-1 : Int), r)
      | r => ((1 : Int), r)
    if ds ≠ [] && ds.all Char.isDigit then JsNum.int (sgn * (digitsToNat ds : Int))
    else JsNum.nan

def JsNum.isNaN : JsNum → Bool
  | JsNum.nan => true
  | _ => false

/-- `major > 3` on JavaScript numbers. -/
def JsNum.gtThree : JsNum → Bool
  | JsNum.posInf => true
  | JsNum.int n => decide (n > 3)
  | _ => false

/-- `major === 3`. -/
def JsNum.eqThree : JsNum → Bool
  | JsNum.int n => decide (n = 3)
  | _ => false

/-- `minor >= 1`. -/
def JsNum.geOne : JsNum → Bool
  | JsNum.posInf => true
  | JsNum.int n => decide (n ≥ 1)
  | _ => false

/-- `isOas31OrAbove` (src/lib/utils/is-oas31-or-above.ts):
split `openapi || ''` at `'.'`, coerce the first two pieces with `Number`,
return `false` on `NaN`, else `major > 3 || (major === 3 && minor >= 1)`.
A missing second piece is `Number(undefined) = NaN`. -/
def isOas31OrAbove (openapi : Option String) : Bool :=
  let parts := jsSplitOnDot (openapi.getD "")
  let major := jsStringToNumber (parts.headD "")
  let minor :=
    match parts.get? 1 with
    | some m => jsStringToNumber m
    | none => JsNum.nan
  if major.isNaN || minor.isNaN then false
  else major.gtThree || (major.eqThree && minor.geOne)

/-- The `type` field of a schema: a scalar string or an ordered list of
strings. -/
inductive SchemaType where
  | str (s : String)
  | arr (l : List String)
deriving DecidableEq

/-- Value of a scalar-or-list `type` as a list (`Array.isArray(type) ? type
: [type]`). -/
def SchemaType.toList : SchemaType → List String
  | SchemaType.str s => [s]
  | SchemaType.arr l => l

/-- The open-record shape of a `SchemaObject | ReferenceObject` value,
parametric in the type of nested schema nodes.  Absent fields are `none`;
`items`/`additionalProperties` hold a schema or a boolean; the legacy
exclusive bounds hold a number or a boolean; `rest` carries the remaining
sibling fields verbatim (opaque to the normalizer). -/
structure SchemaF (α : Type) where
  ref : Option String
  typ : Option SchemaType
  nullable : Option Bool
  properties : Option (List (String × α))
  patternProperties : Option (List (String × α))
  additionalProperties : Option (α ⊕ Bool)
  items : Option (α ⊕ Bool)
  allOf : Option (List α)
  oneOf : Option (List α)
  anyOf : Option (List α)
  nots : Option α
  minimum : Option Int
  maximum : Option Int
  exclusiveMinimum : Option (Int ⊕ Bool)
  exclusiveMaximum : Option (Int ⊕ Bool)
  rest : List (String × String)
deriving DecidableEq

/-- A schema tree node. -/
inductive Schema where
  | mk (f : SchemaF Schema)

/-- The field record of a node. -/
def Schema.f : Schema → SchemaF Schema
  | Schema.mk f => f

def Schema.refF (s : Schema) : Option String := s.f.ref
def Schema.typ (s : Schema) : Option SchemaType := s.f.typ
def Schema.nullable (s : Schema) : Option Bool := s.f.nullable
def Schema.oneOf (s : Schema) : Option (List Schema) := s.f.oneOf
def Schema.anyOf (s : Schema) : Option (List Schema) := s.f.anyOf
def Schema.allOf (s : Schema) : Option (List Schema) := s.f.allOf
def Schema.minimum (s : Schema) : Option Int := s.f.minimum
def Schema.maximum (s : Schema) : Option Int := s.f.maximum
def Schema.exclusiveMinimum (s : Schema) : Option (Int ⊕ Bool) := s.f.exclusiveMinimum
def Schema.exclusiveMaximum (s : Schema) : Option (Int ⊕ Bool) := s.f.exclusiveMaximum

/-- The all-absent field record (the JS object literal `{}`). -/
def emptySchemaF : SchemaF Schema :=
  ⟨none, none, none, none, none, none, none, none, none, none, none,
   none, none, none, none, []⟩

/-- `NULL_TYPE_SCHEMA = { type: 'null' }` (part_002, line 42). -/
def NULL_TYPE_SCHEMA : Schema :=
  Schema.mk { emptySchemaF with typ := some (SchemaType.str "null") }

/-- `isReferenceObject` (part_002, lines 44-48): `!!value?.$ref`, i.e. the
`$ref` field is present and truthy (a non-empty string). -/
def isReferenceObject (s : Schema) : Bool :=
  match s.f.ref with
  | some r => decide (r ≠ "")
  | none => false

/-- The member predicate inside `appendNullOption` (part_002, lines 63-68):
a non-reference member whose `type` equals `'null'` or is a list containing
`'null'`. -/
def denotesNullType (s : Schema) : Bool :=
  !isReferenceObject s &&
    (match s.f.typ with
     | some (SchemaType.str t) => t == "null"
     | some (SchemaType.arr ts) => ts.contains "null"
     | none => false)

/-- `appendNullOption` (part_002, lines 60-70): append `NULL_TYPE_SCHEMA`
unless some member already denotes the null type. -/
def appendNullOption (schemas : List Schema) : List Schema :=
  if schemas.any denotesNullType then schemas else schemas ++ [NULL_TYPE_SCHEMA]

/-- Lines 146-154 of part_002: migration of a boolean `exclusiveMinimum`. -/
def migrateLow (f : SchemaF Schema) : SchemaF Schema :=
  match f.exclusiveMinimum with
  | some (Sum.inr true) =>
    match f.minimum with
    | some m => { f with exclusiveMinimum := some (Sum.inl m), minimum := none }
    | none => { f with exclusiveMinimum := none }
  | some (Sum.inr false) => { f with exclusiveMinimum := none }
  | _ => f

/-- Lines 156-164 of part_002: migration of a boolean `exclusiveMaximum`. -/
def migrateHigh (f : SchemaF Schema) : SchemaF Schema :=
  match f.exclusiveMaximum with
  | some (Sum.inr true) =>
    match f.maximum with
    | some m => { f with exclusiveMaximum := some (Sum.inl m), maximum := none }
    | none => { f with exclusiveMaximum := none }
  | some (Sum.inr false) => { f with exclusiveMaximum := none }
  | _ => f

/-- The exclusive-bound migration step (part_002, lines 146-164), applied to
the node after the recursive walk. -/
def migrateBounds : Schema → Schema
  | Schema.mk f => Schema.mk (migrateHigh (migrateLow f))

/-- Lines 166-200 of part_002: nullable handling.  `isNullable` is recorded,
the `nullable` field is unconditionally dropped, and the node is widened
according to which of `type` / `oneOf` / `anyOf` is present; a node with
`allOf` only, or with none of those keys, is wrapped in
`{anyOf: appendNullOption([converted])}`. -/
def finishNullable : Schema → Schema
  | Schema.mk f =>
    let isNullable := f.nullable == some true
    let c : SchemaF Schema := { f with nullable := none }
    if !isNullable then Schema.mk c
    else
      match c.typ with
      | some tv =>
        let types := tv.toList
        Schema.mk { c with
          typ := some (SchemaType.arr
            (if types.contains "null" then types else types ++ ["null"])) }
      | none =>
        match c.oneOf with
        | some l => Schema.mk { c with oneOf := some (appendNullOption l) }
        | none =>
          match c.anyOf with
          | some l => Schema.mk { c with anyOf := some (appendNullOption l) }
          | none =>
            Schema.mk { emptySchemaF with
              anyOf := some (appendNullOption [Schema.mk c]) }

mutual

/-- `normalizeNullableSchema` (part_002, lines 72-201) on a definite node:
references are returned unchanged; otherwise the children are walked
recursively, boolean exclusive bounds are migrated, and the legacy
`nullable` flag is rewritten. -/
def normalizeNullableSchema : Schema → Schema
  | Schema.mk f =>
    if isReferenceObject (Schema.mk f) then Schema.mk f
    else finishNullable (migrateBounds (Schema.mk (walkFields f)))

/-- Lines 84-136 of part_002: rebuild every schema-bearing child slot with
the normalizer applied; boolean-valued `items`/`additionalProperties` slots
are left untouched. -/
def walkFields (f : SchemaF Schema) : SchemaF Schema :=
  { f with
    properties := normPropsOpt f.properties
    patternProperties := normPropsOpt f.patternProperties
    additionalProperties := normSchemaOrBool f.additionalProperties
    items := normSchemaOrBool f.items
    allOf := normListOpt f.allOf
    oneOf := normListOpt f.oneOf
    anyOf := normListOpt f.anyOf
    nots := normSchemaOpt f.nots }

/-- `Object.entries(...).reduce` over a name-to-schema record. -/
def normPropsOpt : Option (List (String × Schema)) → Option (List (String × Schema))
  | none => none
  | some l => some (normPropList l)

def normPropList : List (String × Schema) → List (String × Schema)
  | [] => []
  | (k, v) :: rest => (k, normalizeNullableSchema v) :: normPropList rest

/-- A schema-or-boolean slot: recurse only into the object form. -/
def normSchemaOrBool : Option (Schema ⊕ Bool) → Option (Schema ⊕ Bool)
  | none => none
  | some (Sum.inr b) => some (Sum.inr b)
  | some (Sum.inl s) => some (Sum.inl (normalizeNullableSchema s))

def normListOpt : Option (List Schema) → Option (List Schema)
  | none => none
  | some l => some (normList l)

def normList : List Schema → List Schema
  | [] => []
  | v :: rest => normalizeNullableSchema v :: normList rest

def normSchemaOpt : Option Schema → Option Schema
  | none => none
  | some s => some (normalizeNullableSchema s)

end

/-- The child-walk phase as a function on nodes. -/
def walkChildren (s : Schema) : Schema := Schema.mk (walkFields s.f)

/-- The version gate of `SwaggerModule.createDocument` (part_002, lines
590-592): the normalizer runs only when the target version is 3.1 or
above; below that the node is left untouched. -/
def normalizeSchemaAtVersion (openapi : Option String) (s : Schema) : Schema :=
  if isOas31OrAbove openapi then normalizeNullableSchema s else s

/-- The normalizer on a possibly-undefined slot (lines 75-77: `undefined` in,
`undefined` out). -/
def normalizeNullableSchemaOpt : Option Schema → Option Schema
  | none => none
  | some s => some (normalizeNullableSchema s)

/-- Version-gated normalizer on a possibly-undefined slot. -/
def normalizeSchemaAtVersionOpt (openapi : Option String) :
    Option Schema → Option Schema
  | none => none
  | some s => some (normalizeSchemaAtVersion openapi s)

/-- A JavaScript object with opaque values, as an insertion-ordered
association list. -/
abbrev JsObj := List (String × String)

/-- The `root` sub-record of a denormalized route descriptor
(`{path, method, isWebhook, webhookName, ...}`); `extra` holds its remaining
fields, which `normalizePaths` spreads into the emitted operation. -/
structure RouteRoot where
  path : String
  method : String
  isWebhook : Bool
  webhookName : Option String
  extra : JsObj
deriving DecidableEq

/-- One entry of the denormalized document list: the optional `root`
sub-record plus the rest of the descriptor (the operation payload spread by
`omit(route, 'root')`). -/
structure RouteRecord where
  root : Option RouteRoot
  fields : JsObj
deriving DecidableEq

/-- The webhook group key (src/lib/swagger-transformer.ts, line 42):
`root.webhookName || root.path` — a missing or empty name falls back to the
path. -/
def webhookGroupKey (r : RouteRoot) : String :=
  match r.webhookName with
  | some w => if w = "" then r.path else w
  | none => r.path

/-- JavaScript object-spread of two objects, `{...a, ...b}`: keys of `a`
keep their position (value overridden by `b` where shared), keys only in `b`
follow in `b`'s order. -/
def jsSpread (a b : JsObj) : JsObj :=
  a.map (fun kv =>
    match b.lookup kv.1 with
    | some v => (kv.1, v)
    | none => kv) ++
  b.filter (fun kv => (a.lookup kv.1).isNone)

/-- Lexicographic string order on code points (JS `<` on the strings this
code produces). -/
def charListLe : List Char → List Char → Bool
  | [], _ => true
  | _ :: _, [] => false
  | a :: as, b :: bs => if a = b then charListLe as bs else decide (a.toNat < b.toNat)

def strLe (a b : String) : Bool := charListLe a.data b.data

/-- Stable insertion into a key-sorted association list. -/
def insertByKey (kv : String × String) : JsObj → JsObj
  | [] => [kv]
  | x :: xs => if strLe x.1 kv.1 then x :: insertByKey kv xs else kv :: x :: xs

/-- Modelled from the spec: `sortObjectLexicographically`
(src/lib/utils/sort-object-lexicographically, imported by
src/lib/swagger-transformer.ts but not present under src/).  Per the spec
(§4.3), "keys of the final merged operation are sorted lexicographically for
deterministic output". -/
def sortObjectLexicographically (l : JsObj) : JsObj :=
  l.foldl (fun acc kv => insertByKey kv acc) []

/-- One step of lodash `groupBy` on an ordered object: append the element to
its key's bucket, or open a new bucket at the end. -/
def addToGroup {β : Type} (acc : List (String × List β)) (k : String) (b : β) :
    List (String × List β) :=
  match acc with
  | [] => [(k, [b])]
  | (k', bs) :: rest =>
    if k' = k then (k', bs ++ [b]) :: rest else (k', bs) :: addToGroup rest k b

/-- lodash `groupBy` with key order = first occurrence of each key. -/
def jsGroupBy {β : Type} (key : β → String) (l : List β) : List (String × List β) :=
  l.foldl (fun acc b => addToGroup acc (key b) b) []

/-- One step of lodash `keyBy`: last value wins, key keeps its first
position. -/
def setAssoc {β : Type} (acc : List (String × β)) (k : String) (v : β) :
    List (String × β) :=
  match acc with
  | [] => [(k, v)]
  | (k', v') :: rest =>
    if k' = k then (k', v) :: rest else (k', v') :: setAssoc rest k v

/-- lodash `keyBy`. -/
def jsKeyBy {β : Type} (key : β → String) (l : List β) : List (String × β) :=
  l.foldl (fun acc b => setAssoc acc (key b) b) []

/-- A `root`-bearing route as `(root, non-root fields)`. -/
abbrev RootedRoute := RouteRoot × JsObj

/-- `filter(denormalizedDoc, (r) => r.root)` (swagger-transformer.ts,
line 11), paired with the descriptor's non-root payload. -/
def rootedRoutes (doc : List RouteRecord) : List RootedRoute :=
  doc.filterMap (fun r => r.root.map (fun rt => (rt, r.fields)))

/-- The emitted operation object (lines 32-36 / 50-54): shallow union of
`omit(route, 'root')` and `omit(route.root, ['method', 'path', 'isWebhook',
'webhookName'])`, keys sorted lexicographically. -/
def mergedDefinition (r : RootedRoute) : JsObj :=
  sortObjectLexicographically (jsSpread r.2 r.1.extra)

/-- A path (or webhook) entry: `method → operation`, via `keyBy` (last route
wins on a duplicate method). -/
def buildOperations (routes : List RootedRoute) : List (String × JsObj) :=
  (jsKeyBy (fun rr => rr.1.method) routes).map (fun kv => (kv.1, mergedDefinition kv.2))

/-- `SwaggerTransformer.normalizePaths` (src/lib/swagger-transformer.ts,
lines 7-62): drop root-less entries; when the target version is 3.1 or
above split the rest by `root.isWebhook`, otherwise treat everything as
paths; group paths by `root.path` and webhooks by `root.webhookName ||
root.path`; key each group by method; emit `webhooks` only when non-empty. -/
def normalizePaths (doc : List RouteRecord) (openapiVersion : Option String) :
    List (String × List (String × JsObj)) ×
      Option (List (String × List (String × JsObj))) :=
  let roots := rootedRoutes doc
  let emitWebhooks := isOas31OrAbove openapiVersion
  let webhookRoots := if emitWebhooks then roots.filter (fun r => r.1.isWebhook) else []
  let pathRoots := if emitWebhooks then roots.filter (fun r => !r.1.isWebhook) else roots
  let paths := (jsGroupBy (fun r => r.1.path) pathRoots).map
    (fun g => (g.1, buildOperations g.2))
  let webhooks := (jsGroupBy (fun r => webhookGroupKey r.1) webhookRoots).map
    (fun g => (g.1, buildOperations g.2))
  (paths, if webhooks.length > 0 then some webhooks else none)

/-- Keys of the emitted `paths` map. -/
def pathKeys (doc : List RouteRecord) (v : Option String) : List String :=
  (normalizePaths doc v).1.map Prod.fst

/-- Keys of the emitted `webhooks` map (empty when the field is omitted). -/
def webhookKeys (doc : List RouteRecord) (v : Option String) : List String :=
  match (normalizePaths doc v).2 with
  | some w => w.map Prod.fst
  | none => []

/-- An OpenAPI tag object as consumed by `SwaggerModule.mergeTags` and
`buildXTagGroups` (fields beyond `name` are optional; `externalDocs` is
opaque to both functions and modelled as an opaque string).  A tag with an
empty `name` models the falsy-name case (`!tag?.name`). -/
structure TagObject where
  name : String
  summary : Option String
  displayName : Option String
  description : Option String
  externalDocs : Option String
  parent : Option String
  kind : Option String
deriving DecidableEq

/-- `{ name: tag.name }`. -/
def tagOnlyName (n : String) : TagObject :=
  ⟨n, none, none, none, none, none, none⟩

/-- The body of the scanned-tag loop of `SwaggerModule.mergeTags`
(part_002, lines 466-493): standard fields prefer the existing (config)
value, and `summary` / `x-displayName` are resolved through the two nullish
chains of lines 473-482. -/
def mergeScannedTag (existing scanned : TagObject) : TagObject :=
  { name := scanned.name
    displayName :=
      existing.displayName <|> existing.summary <|> scanned.displayName <|> scanned.summary
    summary :=
      existing.summary <|> existing.displayName <|> scanned.summary <|> scanned.displayName
    description := existing.description <|> scanned.description
    externalDocs := existing.externalDocs <|> scanned.externalDocs
    parent := existing.parent <|> scanned.parent
    kind := existing.kind <|> scanned.kind }

/-- Insert into the name-keyed `Map`: overwriting keeps the original
insertion position. -/
def setByName (m : List (String × TagObject)) (k : String) (v : TagObject) :
    List (String × TagObject) :=
  setAssoc m k v

/-- `SwaggerModule.mergeTags` (part_002, lines 449-498): config tags are
copied verbatim into a name-keyed map (falsy names skipped), each scanned
tag is merged against the existing entry (or a fresh `{name}` record), and
the map's values are returned, or `undefined` when empty. -/
def mergeTags (configTags scannedTags : Option (List TagObject)) :
    Option (List TagObject) :=
  let m1 := (configTags.getD []).foldl
    (fun m t => if t.name = "" then m else setByName m t.name t) []
  let m2 := (scannedTags.getD []).foldl
    (fun m t =>
      if t.name = "" then m
      else setByName m t.name
        (mergeScannedTag ((m.lookup t.name).getD (tagOnlyName t.name)) t)) m1
  let merged := m2.map Prod.snd
  if merged.length > 0 then some merged else none

/-- A derived tag group `{name, tags}`. -/
structure XTagGroup where
  name : String
  tags : List String
deriving DecidableEq

/-- Truthiness of `tag.parent` (`if (!parent) continue`). -/
def tagHasParent (t : TagObject) : Bool :=
  match t.parent with
  | some p => decide (p ≠ "")
  | none => false

/-- Normalization of `operationTagNames` (build-x-tag-groups.util.ts, lines
84-89): trim, drop empty strings, collect into an insertion-ordered `Set`
(here: a first-seen-deduplicated list).  All entries are strings in this
model, so the `typeof` filter is a no-op. -/
def normalizedOpNames (ops : List String) : List String :=
  ((ops.map jsTrim).filter (fun t => t ≠ "")).foldl
    (fun acc n => if acc.contains n then acc else acc ++ [n]) []

/-- One tag of the parent-collection loop (lines 99-124): append `t.name` to
the bucket of its parent unless already present (the `seen` set mirrors the
bucket's contents). -/
def addChild (gs : List (String × List String)) (p n : String) :
    List (String × List String) :=
  match gs with
  | [] => [(p, [n])]
  | (k, l) :: rest =>
    if k = p then (k, if l.contains n then l else l ++ [n]) :: rest
    else (k, l) :: addChild rest p n

/-- The `groupToChildTags` map after the loop over `tags` (lines 99-124). -/
def childGroups (tags : List TagObject) : List (String × List String) :=
  tags.foldl
    (fun gs t =>
      match t.parent with
      | some p => if p = "" then gs else addChild gs p t.name
      | none => gs) []

/-- Keys of `childToParent`: names of tags that have a truthy `parent`
(lines 99-104). -/
def childNames (tags : List TagObject) : List String :=
  (tags.filter tagHasParent).map TagObject.name

/-- The standalone-group loop (lines 126-135): an operation-referenced name
that is not a child of any parent and not already a group becomes an empty
group. -/
def addStandalones (gs : List (String × List String)) (opNames : List String)
    (tags : List TagObject) : List (String × List String) :=
  opNames.foldl
    (fun gs n =>
      if (childNames tags).contains n then gs
      else if gs.any (fun g => g.1 = n) then gs
      else gs ++ [(n, [])]) gs

/-- The per-group emission fold (lines 143-161): start from `[name]` when a
tag of that name exists or the name is operation-referenced, then append
child names first-seen-deduplicated. -/
def emitGroupTags (selfFirst : Bool) (name : String) (children : List String) :
    List String :=
  children.foldl (fun acc c => if acc.contains c then acc else acc ++ [c])
    (if selfFirst then [name] else [])

/-- `buildXTagGroups` (src/lib/utils/build-x-tag-groups.util.ts, lines
80-163): derive `x-tagGroups` from `tags[].parent` plus standalone groups
for operation-referenced tag names; `undefined` when nothing is derived. -/
def buildXTagGroups (tags : Option (List TagObject))
    (operationTagNames : Option (List String)) : Option (List XTagGroup) :=
  let opNames := normalizedOpNames (operationTagNames.getD [])
  let ts := tags.getD []
  if ts.isEmpty && opNames.isEmpty then none
  else
    let gs := addStandalones (childGroups ts) opNames ts
    if gs.isEmpty then none
    else
      let allTagNames := ts.map TagObject.name
      some (gs.map (fun g =>
        ⟨g.1, emitGroupTags (allTagNames.contains g.1 || opNames.contains g.1) g.1 g.2⟩))

/-- First-seen deduplication (the key order produced by lodash `groupBy` /
a JS `Set`). -/
def dedupFirst (l : List String) : List String :=
  l.foldl (fun acc n => if acc.contains n then acc else acc ++ [n]) []

/-- A tag does not carry two distinct values in its `summary` and
`x-displayName` fields. -/
def mirrorConsistent (t : TagObject) : Prop :=
  t.displayName = none ∨ t.summary = none ∨ t.displayName = t.summary

/-- Neither legacy exclusive bound of a field record is a boolean. -/
def boundsMigrated (f : SchemaF Schema) : Prop :=
  (∀ b, f.exclusiveMinimum ≠ some (Sum.inr b)) ∧
  (∀ b, f.exclusiveMaximum ≠ some (Sum.inr b))

/-- Lines 166-169 of part_002: the node with its `nullable` field dropped. -/
def stripNullable (s : Schema) : Schema :=
  Schema.mk { s.f with nullable := none }

/-- The children of parent `p` in a tag list, first-seen-deduplicated (the
contents of `groupToChildTags.get(p)`). -/
def childrenSpec (p : String) (tags : List TagObject) : List String :=
  dedupFirst ((tags.filter (fun t => t.parent == some p)).map TagObject.name)

/-- `c` sits in one of the schema-bearing child slots of the field record
`f` (the slots the walker of lines 84-136 rewrites). -/
def childSchemaMem (c : Schema) (f : SchemaF Schema) : Prop :=
  (∃ l, f.properties = some l ∧ ∃ k, (k, c) ∈ l) ∨
  (∃ l, f.patternProperties = some l ∧ ∃ k, (k, c) ∈ l) ∨
  f.additionalProperties = some (Sum.inl c) ∨
  f.items = some (Sum.inl c) ∨
  (∃ l, f.allOf = some l ∧ c ∈ l) ∨
  (∃ l, f.oneOf = some l ∧ c ∈ l) ∨
  (∃ l, f.anyOf = some l ∧ c ∈ l) ∨
  f.nots = some c

lemma mem_foldl_dedup (m : List String) :
    ∀ acc k, (k ∈ m.foldl (fun acc n => if acc.contains n then acc else acc ++ [n]) acc) ↔
      k ∈ acc ∨ k ∈ m := by
  induction m with
  | nil => simp
  | cons n m ih =>
    intro acc k
    by_cases hn : acc.contains n
    · simp only [List.foldl_cons, hn, if_pos]
      rw [ih]
      constructor
      · rintro (h | h)
        · exact Or.inl h
        · exact Or.inr (List.mem_cons_of_mem _ h)
      · rintro (h | h)
        · exact Or.inl h
        · rcases List.mem_cons.mp h with h | h
          · subst h; exact Or.inl (by simpa using hn)
          · exact Or.inr h
    · simp only [List.foldl_cons, hn, if_neg, Bool.false_eq_true, not_false_iff]
      rw [ih]
      simp only [List.mem_append, List.mem_singleton, List.mem_cons]
      tauto

lemma mem_dedupFirst (m : List String) (k : String) : k ∈ dedupFirst m ↔ k ∈ m := by
  unfold dedupFirst
  rw [mem_foldl_dedup]
  simp

lemma foldl_dedup_ne_nil (m : List String) :
    ∀ acc, acc ≠ [] →
      m.foldl (fun acc n => if acc.contains n then acc else acc ++ [n]) acc ≠ [] := by
  induction m with
  | nil => intro acc h; simpa using h
  | cons n m ih =>
    intro acc h
    simp only [List.foldl_cons]
    by_cases hn : acc.contains n
    · simp only [hn, if_pos]; exact ih acc h
    · simp only [hn, Bool.false_eq_true, if_neg, not_false_iff]
      exact ih _ (by simp)

lemma dedupFirst_eq_nil_iff (m : List String) : dedupFirst m = [] ↔ m = [] := by
  cases m with
  | nil => simp [dedupFirst]
  | cons n m =>
    have h1 : dedupFirst (n :: m) =
        m.foldl (fun acc n => if acc.contains n then acc else acc ++ [n]) [n] := rfl
    rw [h1]
    constructor
    · intro h
      exact absurd h (foldl_dedup_ne_nil m [n] (by simp))
    · intro h; exact absurd h (by simp)

lemma addToGroup_keys {β : Type} (acc : List (String × List β)) (k : String) (b : β) :
    (addToGroup acc k b).map Prod.fst =
      if (acc.map Prod.fst).contains k then acc.map Prod.fst
      else acc.map Prod.fst ++ [k] := by
  induction acc with
  | nil => simp [addToGroup]
  | cons hd rest ih =>
    obtain ⟨k1, bs⟩ := hd
    by_cases hk : k1 = k
    · subst hk
      simp [addToGroup]
    · simp only [addToGroup, hk, if_neg, not_false_iff, List.map_cons]
      rw [ih]
      by_cases hc : (rest.map Prod.fst).contains k
      · have hcons : (k1 :: rest.map Prod.fst).contains k = true := by
          simp only [List.contains_cons, hc, Bool.or_true]
        rw [if_pos hc, if_pos hcons]
      · have hcons : (k1 :: rest.map Prod.fst).contains k = false := by
          simp only [List.contains_cons, beq_iff_eq, Bool.or_eq_false_iff]
          refine ⟨by simpa using Ne.symm hk, by simpa using hc⟩
        rw [if_neg hc, if_neg (by rw [hcons]; exact Bool.false_ne_true)]
        simp

lemma foldl_group_keys {β : Type} (key : β → String) (l : List β) :
    ∀ gs : List (String × List β),
      ((l.foldl (fun acc b => addToGroup acc (key b) b) gs).map Prod.fst) =
        (l.map key).foldl (fun acc n => if acc.contains n then acc else acc ++ [n])
          (gs.map Prod.fst) := by
  induction l with
  | nil => intro gs; simp
  | cons b l ih =>
    intro gs
    simp only [List.foldl_cons, List.map_cons]
    rw [ih, addToGroup_keys]

lemma jsGroupBy_keys {β : Type} (key : β → String) (l : List β) :
    (jsGroupBy key l).map Prod.fst = dedupFirst (l.map key) := by
  unfold jsGroupBy dedupFirst
  simpa using foldl_group_keys key l []

lemma jsGroupBy_eq_nil_iff {β : Type} (key : β → String) (l : List β) :
    jsGroupBy key l = [] ↔ l = [] := by
  constructor
  · intro h
    have hk : (jsGroupBy key l).map Prod.fst = [] := by rw [h]; rfl
    rw [jsGroupBy_keys] at hk
    have := (dedupFirst_eq_nil_iff (l.map key)).mp hk
    simpa using this
  · intro h; subst h; rfl

lemma rootedRoutes_filter (doc : List RouteRecord) :
    rootedRoutes (doc.filter (fun r => r.root.isSome)) = rootedRoutes doc := by
  induction doc with
  | nil => rfl
  | cons r doc ih =>
    cases hr : r.root with
    | none =>
      simp only [rootedRoutes, List.filter_cons, hr, Option.isSome_none,
        Bool.false_eq_true, if_neg, not_false_iff, List.filterMap_cons, Option.map_none]
      exact ih
    | some rt =>
      simp only [rootedRoutes, List.filter_cons, hr, Option.isSome_some, if_pos,
        List.filterMap_cons, Option.map_some]
      simpa [rootedRoutes] using congrArg (List.cons (rt, r.fields)) ih

lemma map_fst_groups (key : RootedRoute → String) (l : List RootedRoute) :
    ((jsGroupBy key l).map
      (fun g => (g.1, buildOperations g.2))).map Prod.fst = dedupFirst (l.map key) := by
  rw [List.map_map, ← jsGroupBy_keys key l]
  rfl

lemma normalizePaths_gate_true (doc : List RouteRecord) (v : Option String)
    (h : isOas31OrAbove v = true) :
    normalizePaths doc v =
      ((jsGroupBy (fun r => r.1.path)
          ((rootedRoutes doc).filter (fun r => !r.1.isWebhook))).map
        (fun g => (g.1, buildOperations g.2)),
       if ((jsGroupBy (fun r => webhookGroupKey r.1)
            ((rootedRoutes doc).filter (fun r => r.1.isWebhook))).map
          (fun g => (g.1, buildOperations g.2))).length > 0
       then some ((jsGroupBy (fun r => webhookGroupKey r.1)
            ((rootedRoutes doc).filter (fun r => r.1.isWebhook))).map
          (fun g => (g.1, buildOperations g.2)))
       else none) := by
  simp only [normalizePaths, h, if_pos]

lemma normalizePaths_gate_false (doc : List RouteRecord) (v : Option String)
    (h : isOas31OrAbove v = false) :
    normalizePaths doc v =
      ((jsGroupBy (fun r => r.1.path) (rootedRoutes doc)).map
        (fun g => (g.1, buildOperations g.2)), none) := by
  simp only [normalizePaths, h, Bool.false_eq_true, if_neg, not_false_iff]
  rfl

/-- C10: `normalizePaths` silently discards entries with an absent/falsy
`root` before any grouping; the remaining entries are partitioned exactly
as if the discarded ones were never present. -/
theorem normalizePaths_discards_rootless (doc : List RouteRecord) (v : Option String) :
    normalizePaths doc v = normalizePaths (doc.filter (fun r => r.root.isSome)) v := by
  unfold normalizePaths
  rw [rootedRoutes_filter]

lemma pathKeys_gate_true (doc : List RouteRecord) (v : Option String)
    (hgate : isOas31OrAbove v = true) :
    pathKeys doc v =
      dedupFirst (((rootedRoutes doc).filter (fun r => !r.1.isWebhook)).map
        (fun r => r.1.path)) := by
  rw [pathKeys, normalizePaths_gate_true doc v hgate]
  exact map_fst_groups _ _

lemma pathKeys_gate_false (doc : List RouteRecord) (v : Option String)
    (hgate : isOas31OrAbove v = false) :
    pathKeys doc v = dedupFirst ((rootedRoutes doc).map (fun r => r.1.path)) := by
  rw [pathKeys, normalizePaths_gate_false doc v hgate]
  exact map_fst_groups _ _

lemma webhookKeys_gate_true (doc : List RouteRecord) (v : Option String)
    (hgate : isOas31OrAbove v = true) :
    webhookKeys doc v =
      dedupFirst (((rootedRoutes doc).filter (fun r => r.1.isWebhook)).map
        (fun r => webhookGroupKey r.1)) := by
  by_cases hw : (rootedRoutes doc).filter (fun r => r.1.isWebhook) = []
  · rw [webhookKeys, normalizePaths_gate_true doc v hgate, hw]
    rfl
  · have hg : jsGroupBy (fun r => webhookGroupKey r.1)
        ((rootedRoutes doc).filter (fun r => r.1.isWebhook)) ≠ [] :=
      fun h => hw ((jsGroupBy_eq_nil_iff _ _).mp h)
    have hlen : ((jsGroupBy (fun r => webhookGroupKey r.1)
        ((rootedRoutes doc).filter (fun r => r.1.isWebhook))).map
        (fun g => (g.1, buildOperations g.2))).length > 0 := by
      rcases List.exists_cons_of_ne_nil hg with ⟨a, l, he⟩
      rw [he]
      simp
    rw [webhookKeys, normalizePaths_gate_true doc v hgate]
    simp only [hlen, if_pos]
    exact map_fst_groups _ _

lemma webhooks_none_iff (doc : List RouteRecord) (v : Option String)
    (hgate : isOas31OrAbove v = true) :
    (normalizePaths doc v).2 = none ↔
      (rootedRoutes doc).filter (fun r => r.1.isWebhook) = [] := by
  rw [normalizePaths_gate_true doc v hgate]
  by_cases hw : (rootedRoutes doc).filter (fun r => r.1.isWebhook) = []
  · rw [hw]
    simp [jsGroupBy]
  · have hg : jsGroupBy (fun r => webhookGroupKey r.1)
        ((rootedRoutes doc).filter (fun r => r.1.isWebhook)) ≠ [] :=
      fun h => hw ((jsGroupBy_eq_nil_iff _ _).mp h)
    have hlen : ((jsGroupBy (fun r => webhookGroupKey r.1)
        ((rootedRoutes doc).filter (fun r => r.1.isWebhook))).map
        (fun g => (g.1, buildOperations g.2))).length > 0 := by
      rcases List.exists_cons_of_ne_nil hg with ⟨a, l, he⟩
      rw [he]
      simp
    simp only [hlen, if_pos]
    simp [hw]

lemma webhookKeys_gate_false (doc : List RouteRecord) (v : Option String)
    (hgate : isOas31OrAbove v = false) : webhookKeys doc v = [] := by
  rw [webhookKeys, normalizePaths_gate_false doc v hgate]

/-- C8: when the version string parses as `major.minor` with `major > 3` or
`major = 3 ∧ minor ≥ 1`, `normalizePaths` splits the root-bearing
descriptors by `root.isWebhook` (paths keyed by `root.path`, webhooks keyed
by `root.webhookName || root.path`, `webhooks` omitted when empty);
otherwise — absent, malformed, or non-numeric versions included — every
descriptor lands in `paths` and `webhooks` is omitted. -/
theorem normalizePaths_version_gate (doc : List RouteRecord) (v : Option String) :
    (isOas31OrAbove v = true →
      pathKeys doc v =
        dedupFirst (((rootedRoutes doc).filter (fun r => !r.1.isWebhook)).map
          (fun r => r.1.path)) ∧
      webhookKeys doc v =
        dedupFirst (((rootedRoutes doc).filter (fun r => r.1.isWebhook)).map
          (fun r => webhookGroupKey r.1)) ∧
      ((normalizePaths doc v).2 = none ↔
        (rootedRoutes doc).filter (fun r => r.1.isWebhook) = [])) ∧
    (isOas31OrAbove v = false →
      pathKeys doc v = dedupFirst ((rootedRoutes doc).map (fun r => r.1.path)) ∧
      (normalizePaths doc v).2 = none) ∧
    isOas31OrAbove (some "3.1") = true ∧ isOas31OrAbove (some "4.0") = true ∧
    isOas31OrAbove none = false ∧ isOas31OrAbove (some "3.0") = false ∧
    isOas31OrAbove (some "3") = false ∧ isOas31OrAbove (some "three.one") = false := by
  refine ⟨?_, ?_, by decide, by decide, by decide, by decide, by decide, by decide⟩
  · intro hgate
    exact ⟨pathKeys_gate_true doc v hgate, webhookKeys_gate_true doc v hgate,
      webhooks_none_iff doc v hgate⟩
  · intro hgate
    constructor
    · exact pathKeys_gate_false doc v hgate
    · rw [normalizePaths_gate_false doc v hgate]

/-- Witness for `normalizePaths_version_gate`: both implications
instantiated at concrete inputs. -/
theorem normalizePaths_version_gate_witness :
    (isOas31OrAbove (some "3.1") = true ∧
      pathKeys [RouteRecord.mk (some (RouteRoot.mk "/a" "get" true none [])) [],
                RouteRecord.mk (some (RouteRoot.mk "/b" "get" false none [])) []]
          (some "3.1") =
        dedupFirst (((rootedRoutes
          [RouteRecord.mk (some (RouteRoot.mk "/a" "get" true none [])) [],
           RouteRecord.mk (some (RouteRoot.mk "/b" "get" false none [])) []]).filter
            (fun r => !r.1.isWebhook)).map (fun r => r.1.path))) ∧
    (isOas31OrAbove (some "3.0") = false ∧
      (normalizePaths [RouteRecord.mk (some (RouteRoot.mk "/a" "get" true none [])) []]
        (some "3.0")).2 = none) := by
  constructor
  · exact ⟨by decide, ((normalizePaths_version_gate _ (some "3.1")).1 (by decide)).1⟩
  · exact ⟨by decide, ((normalizePaths_version_gate _ (some "3.0")).2.1 (by decide)).2⟩

/-- C2 counterexample: at version 3.1, a webhook route without a
`webhookName` (group key falls back to its `root.path`) and an ordinary
route with the same path put the key `"/a"` into both `paths` and
`webhooks`, so the two maps are not disjoint. -/
theorem paths_webhooks_share_key :
    "/a" ∈ pathKeys
      [RouteRecord.mk (some (RouteRoot.mk "/a" "get" true none [])) [],
       RouteRecord.mk (some (RouteRoot.mk "/a" "post" false none [])) []]
      (some "3.1") ∧
    "/a" ∈ webhookKeys
      [RouteRecord.mk (some (RouteRoot.mk "/a" "get" true none [])) [],
       RouteRecord.mk (some (RouteRoot.mk "/a" "post" false none [])) []]
      (some "3.1") := by
  decide

/-- C2 (amended): the `paths` and `webhooks` maps produced by
`normalizePaths` have no key in common provided no webhook route's group
key (`root.webhookName || root.path`) equals the path of any non-webhook
route of the same input. -/
theorem paths_webhooks_disjoint (doc : List RouteRecord) (v : Option String)
    (h : ∀ a ∈ rootedRoutes doc, ∀ b ∈ rootedRoutes doc,
      a.1.isWebhook = true → b.1.isWebhook = false →
        webhookGroupKey a.1 ≠ b.1.path) :
    ∀ k ∈ webhookKeys doc v, k ∉ pathKeys doc v := by
  intro k hk hp
  cases hgate : isOas31OrAbove v with
  | false =>
    rw [webhookKeys_gate_false doc v hgate] at hk
    exact absurd hk (List.not_mem_nil k)
  | true =>
    rw [webhookKeys_gate_true doc v hgate, mem_dedupFirst] at hk
    rw [pathKeys_gate_true doc v hgate, mem_dedupFirst] at hp
    rcases List.mem_map.mp hk with ⟨a, ha, hka⟩
    rcases List.mem_map.mp hp with ⟨b, hb, hkb⟩
    rcases List.mem_filter.mp ha with ⟨ha', hwa⟩
    rcases List.mem_filter.mp hb with ⟨hb', hwb⟩
    have hwb' : b.1.isWebhook = false := by
      simpa using hwb
    exact h a ha' b hb' hwa hwb' (by rw [hka, hkb])

/-- Witness for `paths_webhooks_disjoint`: an input whose webhook keys and
paths genuinely differ. -/
theorem paths_webhooks_disjoint_witness :
    "hook" ∉ pathKeys
      [RouteRecord.mk (some (RouteRoot.mk "/a" "get" true (some "hook") [])) [],
       RouteRecord.mk (some (RouteRoot.mk "/b" "post" false none [])) []]
      (some "3.1") := by
  refine paths_webhooks_disjoint _ (some "3.1") ?_ "hook" (by decide)
  decide

/-- C3 counterexample: merging the user tag `{name:'A', summary:'S'}` with
no scanned counterpart returns it verbatim — `x-displayName` stays absent,
not `'S'` as the claim requires (mirroring only happens inside the
scanned-tag loop). -/
theorem mergeTags_config_only_not_mirrored :
    mergeTags (some [TagObject.mk "A" (some "S") none none none none none]) none =
      some [TagObject.mk "A" (some "S") none none none none none] ∧
    (TagObject.mk "A" (some "S") none none none none none).displayName = none := by
  constructor
  · decide
  · rfl

lemma mem_setAssoc_values {β : Type} (m : List (String × β)) (k : String) (v x : β) :
    x ∈ (setAssoc m k v).map Prod.snd → x = v ∨ x ∈ m.map Prod.snd := by
  induction m with
  | nil =>
    intro hx
    simp [setAssoc] at hx
    exact Or.inl hx
  | cons hd rest ih =>
    obtain ⟨k1, v1⟩ := hd
    intro hx
    by_cases hk : k1 = k
    · subst hk
      simp [setAssoc] at hx ⊢
      tauto
    · simp only [setAssoc, if_neg hk, List.map_cons, List.mem_cons] at hx
      rcases hx with h | h
      · exact Or.inr (by simp [h])
      · rcases ih h with h2 | h2
        · exact Or.inl h2
        · exact Or.inr (List.mem_cons_of_mem _ h2)

lemma config_fold_values (cfg : List TagObject) :
    ∀ (m : List (String × TagObject)) (x : TagObject),
      x ∈ ((cfg.foldl (fun m t => if t.name = "" then m else setByName m t.name t)
        m).map Prod.snd) → x ∈ cfg ∨ x ∈ m.map Prod.snd := by
  induction cfg with
  | nil =>
    intro m x hx
    exact Or.inr hx
  | cons t cfg ih =>
    intro m x hx
    simp only [List.foldl_cons] at hx
    by_cases hn : t.name = ""
    · rw [if_pos hn] at hx
      rcases ih _ x hx with h | h
      · exact Or.inl (List.mem_cons_of_mem _ h)
      · exact Or.inr h
    · rw [if_neg hn] at hx
      rcases ih _ x hx with h | h
      · exact Or.inl (List.mem_cons_of_mem _ h)
      · rcases mem_setAssoc_values m t.name t x h with h2 | h2
        · exact Or.inl (by simp [h2])
        · exact Or.inr h2

/-- C3 (amended): the summary / `x-displayName` mirroring happens only when
a scanned tag is merged: there the resolved `x-displayName` is
`existing displayName ?? existing summary ?? scanned displayName ?? scanned
summary` and the resolved `summary` is `existing summary ?? existing
displayName ?? scanned summary ?? scanned displayName`; the two resolved
fields coincide whenever neither source tag carries two distinct values in
`summary` and `x-displayName`.  A user-declared tag with no scanned
counterpart is copied into the result verbatim (no `x-displayName` is
synthesized from its `summary`). -/
theorem mergeTags_mirroring (existing scanned : TagObject)
    (h1 : mirrorConsistent existing) (h2 : mirrorConsistent scanned) :
    (mergeScannedTag existing scanned).displayName =
      (existing.displayName <|> existing.summary <|>
        scanned.displayName <|> scanned.summary) ∧
    (mergeScannedTag existing scanned).summary =
      (existing.summary <|> existing.displayName <|>
        scanned.summary <|> scanned.displayName) ∧
    (mergeScannedTag existing scanned).summary =
      (mergeScannedTag existing scanned).displayName ∧
    (∀ (cfg : List TagObject) (t : TagObject),
      t ∈ (mergeTags (some cfg) none).getD [] → t ∈ cfg) := by
  refine ⟨rfl, rfl, ?_, ?_⟩
  · cases hd : existing.displayName <;> cases hs : existing.summary <;>
      cases hd2 : scanned.displayName <;> cases hs2 : scanned.summary <;>
      simp_all [mergeScannedTag, mirrorConsistent]
  · intro cfg t ht
    have he : mergeTags (some cfg) none =
        (if ((cfg.foldl (fun m t => if t.name = "" then m else setByName m t.name t)
            []).map Prod.snd).length > 0
         then some ((cfg.foldl
            (fun m t => if t.name = "" then m else setByName m t.name t) []).map Prod.snd)
         else none) := rfl
    rw [he] at ht
    by_cases hl : ((cfg.foldl (fun m t => if t.name = "" then m else setByName m t.name t)
        []).map Prod.snd).length > 0
    · rw [if_pos hl] at ht
      simp only [Option.getD_some] at ht
      rcases config_fold_values cfg [] t ht with h | h
      · exact h
      · simp at h
    · rw [if_neg hl] at ht
      simp at ht

/-- Witness for `mergeTags_mirroring` at concrete tags. -/
theorem mergeTags_mirroring_witness :
    mirrorConsistent (TagObject.mk "A" (some "S") none none none none none) ∧
    mirrorConsistent (TagObject.mk "A" none (some "D") none none none none) ∧
    (mergeScannedTag (TagObject.mk "A" (some "S") none none none none none)
        (TagObject.mk "A" none (some "D") none none none none)).summary =
      (mergeScannedTag (TagObject.mk "A" (some "S") none none none none none)
        (TagObject.mk "A" none (some "D") none none none none)).displayName := by
  refine ⟨Or.inl rfl, Or.inr (Or.inl rfl), ?_⟩
  exact (mergeTags_mirroring _ _ (Or.inl rfl) (Or.inr (Or.inl rfl))).2.2.1

lemma normalizeNullableSchema_eq (s : Schema) :
    normalizeNullableSchema s =
      if isReferenceObject s then s
      else finishNullable (migrateBounds (Schema.mk (walkFields s.f))) := by
  cases s with
  | mk f =>
    rw [normalizeNullableSchema]
    rfl

lemma walkFields_proj (f : SchemaF Schema) :
    (walkFields f).ref = f.ref ∧ (walkFields f).typ = f.typ ∧
    (walkFields f).nullable = f.nullable ∧
    (walkFields f).minimum = f.minimum ∧ (walkFields f).maximum = f.maximum ∧
    (walkFields f).exclusiveMinimum = f.exclusiveMinimum ∧
    (walkFields f).exclusiveMaximum = f.exclusiveMaximum ∧
    (walkFields f).rest = f.rest := by
  simp [walkFields]

lemma walkFields_slots (f : SchemaF Schema) :
    (walkFields f).properties = normPropsOpt f.properties ∧
    (walkFields f).patternProperties = normPropsOpt f.patternProperties ∧
    (walkFields f).additionalProperties = normSchemaOrBool f.additionalProperties ∧
    (walkFields f).items = normSchemaOrBool f.items ∧
    (walkFields f).allOf = normListOpt f.allOf ∧
    (walkFields f).oneOf = normListOpt f.oneOf ∧
    (walkFields f).anyOf = normListOpt f.anyOf ∧
    (walkFields f).nots = normSchemaOpt f.nots := by
  simp [walkFields]

lemma migrateLow_proj (f : SchemaF Schema) :
    (migrateLow f).ref = f.ref ∧ (migrateLow f).typ = f.typ ∧
    (migrateLow f).nullable = f.nullable ∧
    (migrateLow f).properties = f.properties ∧
    (migrateLow f).patternProperties = f.patternProperties ∧
    (migrateLow f).additionalProperties = f.additionalProperties ∧
    (migrateLow f).items = f.items ∧
    (migrateLow f).allOf = f.allOf ∧ (migrateLow f).oneOf = f.oneOf ∧
    (migrateLow f).anyOf = f.anyOf ∧ (migrateLow f).nots = f.nots ∧
    (migrateLow f).rest = f.rest ∧
    (migrateLow f).exclusiveMaximum = f.exclusiveMaximum ∧
    (migrateLow f).maximum = f.maximum := by
  unfold migrateLow
  split <;> (try split) <;> simp

lemma migrateHigh_proj (f : SchemaF Schema) :
    (migrateHigh f).ref = f.ref ∧ (migrateHigh f).typ = f.typ ∧
    (migrateHigh f).nullable = f.nullable ∧
    (migrateHigh f).properties = f.properties ∧
    (migrateHigh f).patternProperties = f.patternProperties ∧
    (migrateHigh f).additionalProperties = f.additionalProperties ∧
    (migrateHigh f).items = f.items ∧
    (migrateHigh f).allOf = f.allOf ∧ (migrateHigh f).oneOf = f.oneOf ∧
    (migrateHigh f).anyOf = f.anyOf ∧ (migrateHigh f).nots = f.nots ∧
    (migrateHigh f).rest = f.rest ∧
    (migrateHigh f).exclusiveMinimum = f.exclusiveMinimum ∧
    (migrateHigh f).minimum = f.minimum := by
  unfold migrateHigh
  split <;> (try split) <;> simp

lemma migrateBounds_f (f : SchemaF Schema) :
    (migrateBounds (Schema.mk f)).f = migrateHigh (migrateLow f) := rfl

lemma finishNullable_not_nullable (t : Schema) (h : t.f.nullable ≠ some true) :
    finishNullable t = stripNullable t := by
  cases t with
  | mk f =>
    simp only [Schema.f] at h
    have hb : (f.nullable == some true) = false := by
      simp [h]
    unfold finishNullable
    simp [hb, stripNullable, Schema.f]

lemma finishNullable_typ (t : Schema) (tv : SchemaType)
    (hn : t.f.nullable = some true) (ht : t.f.typ = some tv) :
    finishNullable t =
      Schema.mk
        { t.f with
          nullable := none,
          typ := some (SchemaType.arr
            (if tv.toList.contains "null" then tv.toList else tv.toList ++ ["null"])) } := by
  cases t with
  | mk f =>
    simp only [Schema.f] at hn ht
    unfold finishNullable
    simp [hn, ht, Schema.f]

lemma finishNullable_oneOf (t : Schema) (l : List Schema)
    (hn : t.f.nullable = some true) (ht : t.f.typ = none) (ho : t.f.oneOf = some l) :
    finishNullable t =
      Schema.mk
        { t.f with
          nullable := none,
          oneOf := some (appendNullOption l) } := by
  cases t with
  | mk f =>
    simp only [Schema.f] at hn ht ho
    unfold finishNullable
    simp [hn, ht, ho, Schema.f]

lemma finishNullable_anyOf (t : Schema) (l : List Schema)
    (hn : t.f.nullable = some true) (ht : t.f.typ = none) (ho : t.f.oneOf = none)
    (ha : t.f.anyOf = some l) :
    finishNullable t =
      Schema.mk
        { t.f with
          nullable := none,
          anyOf := some (appendNullOption l) } := by
  cases t with
  | mk f =>
    simp only [Schema.f] at hn ht ho ha
    unfold finishNullable
    simp [hn, ht, ho, ha, Schema.f]

lemma finishNullable_wrap (t : Schema)
    (hn : t.f.nullable = some true) (ht : t.f.typ = none) (ho : t.f.oneOf = none)
    (ha : t.f.anyOf = none) :
    finishNullable t =
      Schema.mk
        { emptySchemaF with
          anyOf := some (appendNullOption [stripNullable t]) } := by
  cases t with
  | mk f =>
    simp only [Schema.f] at hn ht ho ha
    unfold finishNullable
    simp [hn, ht, ho, ha, stripNullable, Schema.f]

/-- C7 counterexample: a node that carries a `$ref` field whose value is the
empty string is not recognized by `isReferenceObject` (`!!value?.$ref` is
falsy), so the normalizer rewrites it instead of returning it unchanged. -/
theorem ref_field_empty_string_rewritten :
    (Schema.refF (Schema.mk { emptySchemaF with
      ref := some ""
      nullable := some true
      typ := some (SchemaType.str "string") })).isSome = true ∧
    normalizeNullableSchema (Schema.mk { emptySchemaF with
      ref := some ""
      nullable := some true
      typ := some (SchemaType.str "string") }) ≠
      Schema.mk { emptySchemaF with
        ref := some ""
        nullable := some true
        typ := some (SchemaType.str "string") } := by
  refine ⟨rfl, fun h => ?_⟩
  have h1 := congrArg Schema.nullable h
  exact absurd h1 (by decide)

/-- C7 (amended): every node whose `$ref` field holds a non-empty string —
exactly the nodes `isReferenceObject` accepts — is returned unchanged by the
normalizer, at every target version; the referenced definition is never
entered. -/
theorem reference_nodes_unchanged (s : Schema) (v : Option String)
    (h : isReferenceObject s = true) :
    normalizeNullableSchema s = s ∧ normalizeSchemaAtVersion v s = s := by
  have h1 : normalizeNullableSchema s = s := by
    rw [normalizeNullableSchema_eq, h]
    simp
  refine ⟨h1, ?_⟩
  unfold normalizeSchemaAtVersion
  cases isOas31OrAbove v
  · simp
  · simpa using h1

/-- Witness for `reference_nodes_unchanged` at a concrete reference node. -/
theorem reference_nodes_unchanged_witness :
    isReferenceObject (Schema.mk { emptySchemaF with
      ref := some "#/components/schemas/Foo"
      nullable := some true }) = true ∧
    normalizeNullableSchema (Schema.mk { emptySchemaF with
      ref := some "#/components/schemas/Foo"
      nullable := some true }) =
      Schema.mk { emptySchemaF with
        ref := some "#/components/schemas/Foo"
        nullable := some true } := by
  refine ⟨by decide, ?_⟩
  exact (reference_nodes_unchanged _ (some "3.1") (by decide)).1

/-- C4: a non-reference node with `nullable: true` and a `type` field,
normalized at 3.1+, loses `nullable`, has its scalar `type` coerced to a
list, and gains `'null'` in the list unless already present; below 3.1 the
node is returned unchanged. -/
theorem nullable_with_type_migration (s : Schema) (v31 v0 : Option String)
    (tv : SchemaType) (href : isReferenceObject s = false)
    (hn : s.nullable = some true) (ht : s.typ = some tv)
    (h31 : isOas31OrAbove v31 = true) (h0 : isOas31OrAbove v0 = false) :
    (normalizeSchemaAtVersion v31 s).nullable = none ∧
    (normalizeSchemaAtVersion v31 s).typ = some (SchemaType.arr
      (if tv.toList.contains "null" then tv.toList else tv.toList ++ ["null"])) ∧
    normalizeSchemaAtVersion v0 s = s := by
  have hv : normalizeSchemaAtVersion v31 s = normalizeNullableSchema s := by
    unfold normalizeSchemaAtVersion
    rw [h31]
    simp
  have hnorm : normalizeNullableSchema s =
      finishNullable (migrateBounds (Schema.mk (walkFields s.f))) := by
    rw [normalizeNullableSchema_eq, href]
    simp
  have hmn : (migrateBounds (Schema.mk (walkFields s.f))).f.nullable = some true := by
    rw [migrateBounds_f, (migrateHigh_proj _).2.2.1, (migrateLow_proj _).2.2.1,
      (walkFields_proj _).2.2.1]
    exact hn
  have hmt : (migrateBounds (Schema.mk (walkFields s.f))).f.typ = some tv := by
    rw [migrateBounds_f, (migrateHigh_proj _).2.1, (migrateLow_proj _).2.1,
      (walkFields_proj _).2.1]
    exact ht
  refine ⟨?_, ?_, ?_⟩
  · rw [Schema.nullable, hv, hnorm, finishNullable_typ _ tv hmn hmt]
    rfl
  · rw [Schema.typ, hv, hnorm, finishNullable_typ _ tv hmn hmt]
    rfl
  · unfold normalizeSchemaAtVersion
    rw [h0]
    simp

/-- Witness for `nullable_with_type_migration`:
`{type:'string', nullable:true}` at 3.1 becomes `{type:['string','null']}`
and is untouched at 3.0. -/
theorem nullable_with_type_migration_witness :
    (Schema.mk { emptySchemaF with
      nullable := some true
      typ := some (SchemaType.str "string") }).nullable = some true ∧
    isOas31OrAbove (some "3.1") = true ∧ isOas31OrAbove (some "3.0") = false ∧
    (normalizeSchemaAtVersion (some "3.1") (Schema.mk { emptySchemaF with
      nullable := some true
      typ := some (SchemaType.str "string") })).typ =
        some (SchemaType.arr ["string", "null"]) := by
  refine ⟨rfl, by decide, by decide, ?_⟩
  exact (nullable_with_type_migration
    (Schema.mk { emptySchemaF with
      nullable := some true
      typ := some (SchemaType.str "string") })
    (some "3.1") (some "3.0")
    (SchemaType.str "string") rfl rfl rfl (by decide) (by decide)).2.1

lemma migrateLow_true_num (f : SchemaF Schema) (m : Int)
    (h1 : f.exclusiveMinimum = some (Sum.inr true)) (h2 : f.minimum = some m) :
    (migrateLow f).exclusiveMinimum = some (Sum.inl m) ∧
    (migrateLow f).minimum = none := by
  simp [migrateLow, h1, h2]

lemma migrateLow_true_noNum (f : SchemaF Schema)
    (h1 : f.exclusiveMinimum = some (Sum.inr true)) (h2 : f.minimum = none) :
    (migrateLow f).exclusiveMinimum = none ∧ (migrateLow f).minimum = none := by
  simp [migrateLow, h1, h2]

lemma migrateLow_false (f : SchemaF Schema)
    (h1 : f.exclusiveMinimum = some (Sum.inr false)) :
    (migrateLow f).exclusiveMinimum = none ∧ (migrateLow f).minimum = f.minimum := by
  simp [migrateLow, h1]

lemma migrateLow_nonbool (f : SchemaF Schema)
    (h : ∀ b, f.exclusiveMinimum ≠ some (Sum.inr b)) : migrateLow f = f := by
  rcases hx : f.exclusiveMinimum with _ | v
  · simp [migrateLow, hx]
  · rcases v with n | b
    · simp [migrateLow, hx]
    · exact absurd hx (h b)

lemma migrateHigh_true_num (f : SchemaF Schema) (m : Int)
    (h1 : f.exclusiveMaximum = some (Sum.inr true)) (h2 : f.maximum = some m) :
    (migrateHigh f).exclusiveMaximum = some (Sum.inl m) ∧
    (migrateHigh f).maximum = none := by
  simp [migrateHigh, h1, h2]

lemma migrateHigh_true_noNum (f : SchemaF Schema)
    (h1 : f.exclusiveMaximum = some (Sum.inr true)) (h2 : f.maximum = none) :
    (migrateHigh f).exclusiveMaximum = none ∧ (migrateHigh f).maximum = none := by
  simp [migrateHigh, h1, h2]

lemma migrateHigh_false (f : SchemaF Schema)
    (h1 : f.exclusiveMaximum = some (Sum.inr false)) :
    (migrateHigh f).exclusiveMaximum = none ∧ (migrateHigh f).maximum = f.maximum := by
  simp [migrateHigh, h1]

lemma migrateHigh_nonbool (f : SchemaF Schema)
    (h : ∀ b, f.exclusiveMaximum ≠ some (Sum.inr b)) : migrateHigh f = f := by
  rcases hx : f.exclusiveMaximum with _ | v
  · simp [migrateHigh, hx]
  · rcases v with n | b
    · simp [migrateHigh, hx]
    · exact absurd hx (h b)

lemma norm_f_bounds (s : Schema) (href : isReferenceObject s = false)
    (hnw : ¬(s.f.nullable = some true ∧ s.f.typ = none ∧
      s.f.oneOf = none ∧ s.f.anyOf = none)) :
    (normalizeNullableSchema s).exclusiveMinimum =
      (migrateHigh (migrateLow (walkFields s.f))).exclusiveMinimum ∧
    (normalizeNullableSchema s).minimum =
      (migrateHigh (migrateLow (walkFields s.f))).minimum ∧
    (normalizeNullableSchema s).exclusiveMaximum =
      (migrateHigh (migrateLow (walkFields s.f))).exclusiveMaximum ∧
    (normalizeNullableSchema s).maximum =
      (migrateHigh (migrateLow (walkFields s.f))).maximum := by
  have hnorm : normalizeNullableSchema s =
      finishNullable (Schema.mk (migrateHigh (migrateLow (walkFields s.f)))) := by
    rw [normalizeNullableSchema_eq, href]
    simp [migrateBounds]
  obtain ⟨w1, w2, w3, w4, w5, w6, w7, w8⟩ := walkFields_proj s.f
  obtain ⟨l1, l2, l3, l4, l5, l6, l7, l8, l9, l10, l11, l12, l13, l14⟩ :=
    migrateLow_proj (walkFields s.f)
  obtain ⟨g1, g2, g3, g4, g5, g6, g7, g8, g9, g10, g11, g12, g13, g14⟩ :=
    migrateHigh_proj (migrateLow (walkFields s.f))
  have hmnull : (Schema.mk (migrateHigh (migrateLow (walkFields s.f)))).f.nullable =
      s.f.nullable := by
    rw [Schema.f, g3, l3, w3]
  have hmtyp : (Schema.mk (migrateHigh (migrateLow (walkFields s.f)))).f.typ =
      s.f.typ := by
    rw [Schema.f, g2, l2, w2]
  have hmone : (Schema.mk (migrateHigh (migrateLow (walkFields s.f)))).f.oneOf =
      normListOpt s.f.oneOf := by
    rw [Schema.f, g9, l9, (walkFields_slots s.f).2.2.2.2.2.1]
  have hmany : (Schema.mk (migrateHigh (migrateLow (walkFields s.f)))).f.anyOf =
      normListOpt s.f.anyOf := by
    rw [Schema.f, g10, l10, (walkFields_slots s.f).2.2.2.2.2.2.1]
  rw [hnorm]
  by_cases hnn : s.f.nullable = some true
  · by_cases hty : s.f.typ = none
    · by_cases hone : s.f.oneOf = none
      · by_cases hany : s.f.anyOf = none
        · exact absurd ⟨hnn, hty, hone, hany⟩ hnw
        · rcases Option.ne_none_iff_exists.mp hany with ⟨l, hl⟩
          rw [finishNullable_anyOf _ (normList l) (by rw [hmnull]; exact hnn)
            (by rw [hmtyp]; exact hty)
            (by rw [hmone, hone]; rfl)
            (by rw [hmany, ← hl]; rfl)]
          exact ⟨rfl, rfl, rfl, rfl⟩
      · rcases Option.ne_none_iff_exists.mp hone with ⟨l, hl⟩
        rw [finishNullable_oneOf _ (normList l) (by rw [hmnull]; exact hnn)
          (by rw [hmtyp]; exact hty)
          (by rw [hmone, ← hl]; rfl)]
        exact ⟨rfl, rfl, rfl, rfl⟩
    · rcases Option.ne_none_iff_exists.mp hty with ⟨tv, htv⟩
      rw [finishNullable_typ _ tv (by rw [hmnull]; exact hnn)
        (by rw [hmtyp, ← htv])]
      exact ⟨rfl, rfl, rfl, rfl⟩
  · rw [finishNullable_not_nullable _ (by rw [hmnull]; exact hnn)]
    exact ⟨rfl, rfl, rfl, rfl⟩

/-- C5: at 3.1+, a boolean `exclusiveMinimum: true` with a numeric `minimum`
becomes `exclusiveMinimum: minimum` (and `minimum` is dropped); a boolean
`exclusiveMinimum` without a numeric `minimum`, or `false`, is removed;
numeric exclusive bounds pass through; symmetrically for
`exclusiveMaximum`/`maximum`; below 3.1 the node is unchanged.  (Stated for
nodes whose normalized form is the node itself rather than the
`{anyOf: [...]}` wrapper, i.e. excluding the nullable-composition wrap.) -/
theorem exclusive_bound_migration (s : Schema) (v31 v0 : Option String)
    (href : isReferenceObject s = false)
    (hnw : ¬(s.nullable = some true ∧ s.typ = none ∧
      s.oneOf = none ∧ s.anyOf = none))
    (h31 : isOas31OrAbove v31 = true) (h0 : isOas31OrAbove v0 = false) :
    (∀ m : Int, s.exclusiveMinimum = some (Sum.inr true) → s.minimum = some m →
      (normalizeSchemaAtVersion v31 s).exclusiveMinimum = some (Sum.inl m) ∧
      (normalizeSchemaAtVersion v31 s).minimum = none) ∧
    (s.exclusiveMinimum = some (Sum.inr true) → s.minimum = none →
      (normalizeSchemaAtVersion v31 s).exclusiveMinimum = none ∧
      (normalizeSchemaAtVersion v31 s).minimum = none) ∧
    (s.exclusiveMinimum = some (Sum.inr false) →
      (normalizeSchemaAtVersion v31 s).exclusiveMinimum = none ∧
      (normalizeSchemaAtVersion v31 s).minimum = s.minimum) ∧
    ((∀ b, s.exclusiveMinimum ≠ some (Sum.inr b)) →
      (normalizeSchemaAtVersion v31 s).exclusiveMinimum = s.exclusiveMinimum ∧
      (normalizeSchemaAtVersion v31 s).minimum = s.minimum) ∧
    (∀ m : Int, s.exclusiveMaximum = some (Sum.inr true) → s.maximum = some m →
      (normalizeSchemaAtVersion v31 s).exclusiveMaximum = some (Sum.inl m) ∧
      (normalizeSchemaAtVersion v31 s).maximum = none) ∧
    (s.exclusiveMaximum = some (Sum.inr true) → s.maximum = none →
      (normalizeSchemaAtVersion v31 s).exclusiveMaximum = none ∧
      (normalizeSchemaAtVersion v31 s).maximum = none) ∧
    (s.exclusiveMaximum = some (Sum.inr false) →
      (normalizeSchemaAtVersion v31 s).exclusiveMaximum = none ∧
      (normalizeSchemaAtVersion v31 s).maximum = s.maximum) ∧
    ((∀ b, s.exclusiveMaximum ≠ some (Sum.inr b)) →
      (normalizeSchemaAtVersion v31 s).exclusiveMaximum = s.exclusiveMaximum ∧
      (normalizeSchemaAtVersion v31 s).maximum = s.maximum) ∧
    normalizeSchemaAtVersion v0 s = s := by
  have hv : normalizeSchemaAtVersion v31 s = normalizeNullableSchema s := by
    unfold normalizeSchemaAtVersion
    rw [h31]
    simp
  obtain ⟨b1, b2, b3, b4⟩ := norm_f_bounds s href hnw
  obtain ⟨w1, w2, w3, w4, w5, w6, w7, w8⟩ := walkFields_proj s.f
  obtain ⟨l1, l2, l3, l4, l5, l6, l7, l8, l9, l10, l11, l12, l13, l14⟩ :=
    migrateLow_proj (walkFields s.f)
  obtain ⟨g1, g2, g3, g4, g5, g6, g7, g8, g9, g10, g11, g12, g13, g14⟩ :=
    migrateHigh_proj (migrateLow (walkFields s.f))
  have se1 : s.exclusiveMinimum = s.f.exclusiveMinimum := rfl
  have se3 : s.exclusiveMaximum = s.f.exclusiveMaximum := rfl
  refine ⟨?_, ?_, ?_, ?_, ?_, ?_, ?_, ?_, ?_⟩
  · intro m h hm
    have hc := migrateLow_true_num (walkFields s.f) m (by rw [w6]; exact h)
      (by rw [w4]; exact hm)
    constructor
    · rw [hv, b1, g13, hc.1]
    · rw [hv, b2, g14, hc.2]
  · intro h hm
    have hc := migrateLow_true_noNum (walkFields s.f) (by rw [w6]; exact h)
      (by rw [w4]; exact hm)
    constructor
    · rw [hv, b1, g13, hc.1]
    · rw [hv, b2, g14, hc.2]
  · intro h
    have hc := migrateLow_false (walkFields s.f) (by rw [w6]; exact h)
    constructor
    · rw [hv, b1, g13, hc.1]
    · rw [hv, b2, g14, hc.2, w4]
      rfl
  · intro h
    have hc := migrateLow_nonbool (walkFields s.f)
      (fun b hb => h b (by rw [se1, ← w6]; exact hb))
    constructor
    · rw [hv, b1, g13, hc, w6]
      rfl
    · rw [hv, b2, g14, hc, w4]
      rfl
  · intro m h hm
    have hc := migrateHigh_true_num (migrateLow (walkFields s.f)) m
      (by rw [l13, w7]; exact h) (by rw [l14, w5]; exact hm)
    constructor
    · rw [hv, b3, hc.1]
    · rw [hv, b4, hc.2]
  · intro h hm
    have hc := migrateHigh_true_noNum (migrateLow (walkFields s.f))
      (by rw [l13, w7]; exact h) (by rw [l14, w5]; exact hm)
    constructor
    · rw [hv, b3, hc.1]
    · rw [hv, b4, hc.2]
  · intro h
    have hc := migrateHigh_false (migrateLow (walkFields s.f)) (by rw [l13, w7]; exact h)
    constructor
    · rw [hv, b3, hc.1]
    · rw [hv, b4, hc.2, l14, w5]
      rfl
  · intro h
    have hc := migrateHigh_nonbool (migrateLow (walkFields s.f))
      (fun b hb => h b (by rw [se3, ← w7, ← l13]; exact hb))
    constructor
    · rw [hv, b3, hc, l13, w7]
      rfl
    · rw [hv, b4, hc, l14, w5]
      rfl
  · unfold normalizeSchemaAtVersion
    rw [h0]
    simp

/-- Witness for `exclusive_bound_migration`: the spec example
`{minimum: 0, exclusiveMinimum: true, maximum: 10, exclusiveMaximum: true}`
at 3.1 gains `exclusiveMinimum: 0` and loses `minimum`. -/
theorem exclusive_bound_migration_witness :
    isReferenceObject (Schema.mk { emptySchemaF with
      minimum := some 0
      maximum := some 10
      exclusiveMinimum := some (Sum.inr true)
      exclusiveMaximum := some (Sum.inr true) }) = false ∧
    (normalizeSchemaAtVersion (some "3.1") (Schema.mk { emptySchemaF with
      minimum := some 0
      maximum := some 10
      exclusiveMinimum := some (Sum.inr true)
      exclusiveMaximum := some (Sum.inr true) })).exclusiveMinimum =
        some (Sum.inl 0) ∧
    (normalizeSchemaAtVersion (some "3.1") (Schema.mk { emptySchemaF with
      minimum := some 0
      maximum := some 10
      exclusiveMinimum := some (Sum.inr true)
      exclusiveMaximum := some (Sum.inr true) })).minimum = none := by
  refine ⟨rfl, ?_, ?_⟩
  · exact ((exclusive_bound_migration (Schema.mk { emptySchemaF with
      minimum := some 0
      maximum := some 10
      exclusiveMinimum := some (Sum.inr true)
      exclusiveMaximum := some (Sum.inr true) }) (some "3.1") (some "3.0")
      rfl (by simp [Schema.nullable, Schema.f, emptySchemaF])
      (by decide) (by decide)).1 0 rfl rfl).1
  · exact ((exclusive_bound_migration (Schema.mk { emptySchemaF with
      minimum := some 0
      maximum := some 10
      exclusiveMinimum := some (Sum.inr true)
      exclusiveMaximum := some (Sum.inr true) }) (some "3.1") (some "3.0")
      rfl (by simp [Schema.nullable, Schema.f, emptySchemaF])
      (by decide) (by decide)).1 0 rfl rfl).2

/-- C6: a nullable non-reference node without `type`, normalized (3.1+
behavior): with `oneOf` present a `{type:'null'}` member is appended via
`appendNullOption` (which skips the append when a member already denotes the
null type); failing that, `anyOf` is treated the same way; otherwise —
`allOf` present or no composition at all — the bound-migrated,
nullable-stripped node is wrapped as `{anyOf: [node, {type:'null'}]}`. -/
theorem nullable_without_type (s : Schema)
    (href : isReferenceObject s = false) (hn : s.nullable = some true)
    (ht : s.typ = none) :
    (∀ l, s.oneOf = some l →
      (normalizeNullableSchema s).oneOf = some (appendNullOption (normList l)) ∧
      (normalizeNullableSchema s).nullable = none) ∧
    (s.oneOf = none → ∀ l, s.anyOf = some l →
      (normalizeNullableSchema s).anyOf = some (appendNullOption (normList l)) ∧
      (normalizeNullableSchema s).nullable = none) ∧
    (s.oneOf = none → s.anyOf = none →
      normalizeNullableSchema s =
        Schema.mk
          { emptySchemaF with
            anyOf := some [stripNullable (migrateBounds (walkChildren s)),
              NULL_TYPE_SCHEMA] }) := by
  have hnorm : normalizeNullableSchema s =
      finishNullable (Schema.mk (migrateHigh (migrateLow (walkFields s.f)))) := by
    rw [normalizeNullableSchema_eq, href]
    simp [migrateBounds]
  obtain ⟨w1, w2, w3, w4, w5, w6, w7, w8⟩ := walkFields_proj s.f
  obtain ⟨l1, l2, l3, l4, l5, l6, l7, l8, l9, l10, l11, l12, l13, l14⟩ :=
    migrateLow_proj (walkFields s.f)
  obtain ⟨g1, g2, g3, g4, g5, g6, g7, g8, g9, g10, g11, g12, g13, g14⟩ :=
    migrateHigh_proj (migrateLow (walkFields s.f))
  have hmnull : (Schema.mk (migrateHigh (migrateLow (walkFields s.f)))).f.nullable =
      some true := by
    rw [Schema.f, g3, l3, w3]
    exact hn
  have hmtyp : (Schema.mk (migrateHigh (migrateLow (walkFields s.f)))).f.typ = none := by
    rw [Schema.f, g2, l2, w2]
    exact ht
  have hmone : (Schema.mk (migrateHigh (migrateLow (walkFields s.f)))).f.oneOf =
      normListOpt s.f.oneOf := by
    rw [Schema.f, g9, l9, (walkFields_slots s.f).2.2.2.2.2.1]
  have hmany : (Schema.mk (migrateHigh (migrateLow (walkFields s.f)))).f.anyOf =
      normListOpt s.f.anyOf := by
    rw [Schema.f, g10, l10, (walkFields_slots s.f).2.2.2.2.2.2.1]
  refine ⟨?_, ?_, ?_⟩
  · intro l hl
    rw [hnorm, finishNullable_oneOf _ (normList l) hmnull hmtyp
      (by rw [hmone, show s.f.oneOf = some l from hl]; rfl)]
    exact ⟨rfl, rfl⟩
  · intro ho l hl
    rw [hnorm, finishNullable_anyOf _ (normList l) hmnull hmtyp
      (by rw [hmone, show s.f.oneOf = none from ho]; rfl)
      (by rw [hmany, show s.f.anyOf = some l from hl]; rfl)]
    exact ⟨rfl, rfl⟩
  · intro ho ha
    rw [hnorm, finishNullable_wrap _ hmnull hmtyp
      (by rw [hmone, show s.f.oneOf = none from ho]; rfl)
      (by rw [hmany, show s.f.anyOf = none from ha]; rfl)]
    have hd : denotesNullType
        (stripNullable (Schema.mk (migrateHigh (migrateLow (walkFields s.f))))) =
        false := by
      have hty : (stripNullable
          (Schema.mk (migrateHigh (migrateLow (walkFields s.f))))).f.typ = none := by
        rw [stripNullable]
        simpa [Schema.f] using hmtyp
      simp [denotesNullType, hty]
    have happ : appendNullOption
        [stripNullable (Schema.mk (migrateHigh (migrateLow (walkFields s.f))))] =
        [stripNullable (Schema.mk (migrateHigh (migrateLow (walkFields s.f)))),
          NULL_TYPE_SCHEMA] := by
      simp [appendNullOption, hd]
    rw [happ]
    rfl

/-- Witness for `nullable_without_type`: `{oneOf: [{type:'null'}],
nullable: true}` keeps its `oneOf` unchanged (no duplicate null member). -/
theorem nullable_without_type_witness :
    (Schema.mk { emptySchemaF with
      nullable := some true
      oneOf := some [NULL_TYPE_SCHEMA] }).oneOf = some [NULL_TYPE_SCHEMA] ∧
    (normalizeNullableSchema (Schema.mk { emptySchemaF with
      nullable := some true
      oneOf := some [NULL_TYPE_SCHEMA] })).oneOf =
      some (appendNullOption (normList [NULL_TYPE_SCHEMA])) := by
  refine ⟨rfl, ?_⟩
  exact ((nullable_without_type (Schema.mk { emptySchemaF with
    nullable := some true
    oneOf := some [NULL_TYPE_SCHEMA] }) rfl rfl rfl).1 [NULL_TYPE_SCHEMA] rfl).1

lemma norm_of_ref (s : Schema) (h : isReferenceObject s = true) :
    normalizeNullableSchema s = s := by
  rw [normalizeNullableSchema_eq, h]
  simp

lemma norm_null_type_fixed :
    normalizeNullableSchema NULL_TYPE_SCHEMA = NULL_TYPE_SCHEMA := rfl

lemma mem_normPropList (l : List (String × Schema)) (p : String × Schema) :
    p ∈ normPropList l → ∃ q ∈ l, p = (q.1, normalizeNullableSchema q.2) := by
  induction l with
  | nil =>
    intro h
    rw [normPropList] at h
    simp at h
  | cons q rest ih =>
    obtain ⟨k, v⟩ := q
    intro h
    rw [normPropList] at h
    rcases List.mem_cons.mp h with h1 | h1
    · exact ⟨(k, v), List.mem_cons_self _ _, h1⟩
    · rcases ih h1 with ⟨q2, hq2, he⟩
      exact ⟨q2, List.mem_cons_of_mem _ hq2, he⟩

lemma mem_normList (l : List Schema) (c : Schema) :
    c ∈ normList l → ∃ y ∈ l, c = normalizeNullableSchema y := by
  induction l with
  | nil =>
    intro h
    rw [normList] at h
    simp at h
  | cons y rest ih =>
    intro h
    rw [normList] at h
    rcases List.mem_cons.mp h with h1 | h1
    · exact ⟨y, List.mem_cons_self _ _, h1⟩
    · rcases ih h1 with ⟨y2, hy2, he⟩
      exact ⟨y2, List.mem_cons_of_mem _ hy2, he⟩

lemma mem_appendNullOption (l : List Schema) (c : Schema) :
    c ∈ appendNullOption l → c ∈ l ∨ c = NULL_TYPE_SCHEMA := by
  unfold appendNullOption
  split
  · exact fun h => Or.inl h
  · intro h
    rcases List.mem_append.mp h with h1 | h1
    · exact Or.inl h1
    · exact Or.inr (by simpa using h1)

lemma normPropList_fix (l : List (String × Schema))
    (h : ∀ p ∈ l, normalizeNullableSchema p.2 = p.2) : normPropList l = l := by
  induction l with
  | nil => rw [normPropList]
  | cons q rest ih =>
    obtain ⟨k, v⟩ := q
    rw [normPropList, h (k, v) (List.mem_cons_self _ _),
      ih (fun p hp => h p (List.mem_cons_of_mem _ hp))]

lemma normList_fix (l : List Schema)
    (h : ∀ c ∈ l, normalizeNullableSchema c = c) : normList l = l := by
  induction l with
  | nil => rw [normList]
  | cons y rest ih =>
    rw [normList, h y (List.mem_cons_self _ _),
      ih (fun c hc => h c (List.mem_cons_of_mem _ hc))]

lemma walkFields_fix (f : SchemaF Schema)
    (h : ∀ c, childSchemaMem c f → normalizeNullableSchema c = c) :
    walkFields f = f := by
  have hp : normPropsOpt f.properties = f.properties := by
    cases hx : f.properties with
    | none => rw [normPropsOpt]
    | some l =>
      rw [normPropsOpt, normPropList_fix l]
      intro p hp
      exact h p.2 (Or.inl ⟨l, hx, p.1, by simpa using hp⟩)
  have hpp : normPropsOpt f.patternProperties = f.patternProperties := by
    cases hx : f.patternProperties with
    | none => rw [normPropsOpt]
    | some l =>
      rw [normPropsOpt, normPropList_fix l]
      intro p hp
      exact h p.2 (Or.inr (Or.inl ⟨l, hx, p.1, by simpa using hp⟩))
  have hap : normSchemaOrBool f.additionalProperties = f.additionalProperties := by
    cases hx : f.additionalProperties with
    | none => rw [normSchemaOrBool]
    | some v =>
      cases v with
      | inr b => rw [normSchemaOrBool]
      | inl c =>
        rw [normSchemaOrBool, h c (Or.inr (Or.inr (Or.inl hx)))]
  have hit : normSchemaOrBool f.items = f.items := by
    cases hx : f.items with
    | none => rw [normSchemaOrBool]
    | some v =>
      cases v with
      | inr b => rw [normSchemaOrBool]
      | inl c =>
        rw [normSchemaOrBool, h c (Or.inr (Or.inr (Or.inr (Or.inl hx))))]
  have hal : normListOpt f.allOf = f.allOf := by
    cases hx : f.allOf with
    | none => rw [normListOpt]
    | some l =>
      rw [normListOpt, normList_fix l]
      intro c hc
      exact h c (Or.inr (Or.inr (Or.inr (Or.inr (Or.inl ⟨l, hx, hc⟩)))))
  have hoo : normListOpt f.oneOf = f.oneOf := by
    cases hx : f.oneOf with
    | none => rw [normListOpt]
    | some l =>
      rw [normListOpt, normList_fix l]
      intro c hc
      exact h c (Or.inr (Or.inr (Or.inr (Or.inr (Or.inr (Or.inl ⟨l, hx, hc⟩))))))
  have hao : normListOpt f.anyOf = f.anyOf := by
    cases hx : f.anyOf with
    | none => rw [normListOpt]
    | some l =>
      rw [normListOpt, normList_fix l]
      intro c hc
      exact h c (Or.inr (Or.inr (Or.inr (Or.inr (Or.inr (Or.inr (Or.inl ⟨l, hx, hc⟩)))))))
  have hno : normSchemaOpt f.nots = f.nots := by
    cases hx : f.nots with
    | none => rw [normSchemaOpt]
    | some c =>
      rw [normSchemaOpt,
        h c (Or.inr (Or.inr (Or.inr (Or.inr (Or.inr (Or.inr (Or.inr hx)))))))]
  rw [walkFields, hp, hpp, hap, hit, hal, hoo, hao, hno]

lemma schemaF_strip_id (f : SchemaF Schema) (h : f.nullable = none) :
    ({ f with nullable := none } : SchemaF Schema) = f := by
  obtain ⟨r, ty, nu, p, pp, ap, it, ao, oo, ayo, no, mi, ma, emi, ema, re⟩ := f
  simp only at h
  rw [h]

lemma stripNullable_id (t : Schema) (h : t.f.nullable = none) :
    stripNullable t = t := by
  cases t with
  | mk f =>
    simp only [Schema.f] at h
    rw [stripNullable]
    simp only [Schema.f]
    rw [schemaF_strip_id f h]

lemma finishNullable_id (t : Schema) (h : t.f.nullable = none) :
    finishNullable t = t := by
  rw [finishNullable_not_nullable t (by rw [h]; simp), stripNullable_id t h]

lemma migrateLow_exmin_nonbool (f : SchemaF Schema) (b : Bool) :
    (migrateLow f).exclusiveMinimum ≠ some (Sum.inr b) := by
  rcases hx : f.exclusiveMinimum with _ | v
  · simp [migrateLow, hx]
  · rcases v with n | bb
    · simp [migrateLow, hx]
    · cases bb
      · simp [migrateLow, hx]
      · rcases hm : f.minimum with _ | m
        · simp [migrateLow, hx, hm]
        · simp [migrateLow, hx, hm]

lemma migrateHigh_exmax_nonbool (f : SchemaF Schema) (b : Bool) :
    (migrateHigh f).exclusiveMaximum ≠ some (Sum.inr b) := by
  rcases hx : f.exclusiveMaximum with _ | v
  · simp [migrateHigh, hx]
  · rcases v with n | bb
    · simp [migrateHigh, hx]
    · cases bb
      · simp [migrateHigh, hx]
      · rcases hm : f.maximum with _ | m
        · simp [migrateHigh, hx, hm]
        · simp [migrateHigh, hx, hm]

lemma migrateBothNonbool (f : SchemaF Schema)
    (h1 : ∀ b, f.exclusiveMinimum ≠ some (Sum.inr b))
    (h2 : ∀ b, f.exclusiveMaximum ≠ some (Sum.inr b)) :
    migrateHigh (migrateLow f) = f := by
  rw [migrateLow_nonbool f h1, migrateHigh_nonbool f h2]

/-- A node that is not a reference, has no `nullable` field, has no boolean
exclusive bound, and whose child slots are all fixed points of the
normalizer, is itself a fixed point. -/
lemma norm_fixed_of (t : Schema) (h1 : isReferenceObject t = false)
    (h2 : t.f.nullable = none)
    (h3 : ∀ b, t.f.exclusiveMinimum ≠ some (Sum.inr b))
    (h4 : ∀ b, t.f.exclusiveMaximum ≠ some (Sum.inr b))
    (h5 : ∀ c, childSchemaMem c t.f → normalizeNullableSchema c = c) :
    normalizeNullableSchema t = t := by
  rw [normalizeNullableSchema_eq, h1]
  simp only [Bool.false_eq_true, if_false]
  rw [walkFields_fix t.f h5]
  have hmb : migrateBounds (Schema.mk t.f) = Schema.mk t.f := by
    rw [migrateBounds]
    rw [migrateBothNonbool t.f h3 h4]
  rw [hmb]
  have hmk : Schema.mk t.f = t := by
    cases t
    rfl
  rw [hmk, finishNullable_id t h2]

lemma childSchemaMem_sizeOf (c : Schema) (f : SchemaF Schema)
    (h : childSchemaMem c f) : sizeOf c < sizeOf (Schema.mk f) := by
  obtain ⟨r, ty, nu, p, pp, ap, it, ao, oo, ayo, no, mi, ma, emi, ema, re⟩ := f
  rcases h with ⟨l, hl, k, hk⟩ | ⟨l, hl, k, hk⟩ | hl | hl |
    ⟨l, hl, hk⟩ | ⟨l, hl, hk⟩ | ⟨l, hl, hk⟩ | hl <;>
    dsimp only at hl <;> subst hl <;>
    first
      | (have h1 := List.sizeOf_lt_of_mem hk
         simp at h1 ⊢
         omega)
      | (simp
         omega)

lemma isRef_congr (t1 t2 : Schema) (h : t1.f.ref = t2.f.ref) :
    isReferenceObject t1 = isReferenceObject t2 := by
  rw [isReferenceObject, isReferenceObject, h]

lemma childSchemaMem_norm_source (s : Schema) (c : Schema)
    (hc : childSchemaMem c (migrateHigh (migrateLow (walkFields s.f)))) :
    ∃ y, childSchemaMem y s.f ∧ c = normalizeNullableSchema y := by
  obtain ⟨w1, w2, w3, w4, w5, w6, w7, w8⟩ := walkFields_proj s.f
  obtain ⟨ws1, ws2, ws3, ws4, ws5, ws6, ws7, ws8⟩ := walkFields_slots s.f
  obtain ⟨l1, l2, l3, l4, l5, l6, l7, l8, l9, l10, l11, l12, l13, l14⟩ :=
    migrateLow_proj (walkFields s.f)
  obtain ⟨g1, g2, g3, g4, g5, g6, g7, g8, g9, g10, g11, g12, g13, g14⟩ :=
    migrateHigh_proj (migrateLow (walkFields s.f))
  rcases hc with ⟨l, hl, k, hk⟩ | ⟨l, hl, k, hk⟩ | hl | hl |
    ⟨l, hl, hk⟩ | ⟨l, hl, hk⟩ | ⟨l, hl, hk⟩ | hl
  · rw [g4, l4, ws1] at hl
    cases hx : s.f.properties with
    | none => rw [hx, normPropsOpt] at hl; exact absurd hl (by simp)
    | some l0 =>
      rw [hx, normPropsOpt] at hl
      have hleq : normPropList l0 = l := by simpa using hl
      rcases mem_normPropList l0 (k, c) (by rw [hleq]; exact hk) with ⟨q, hq, he⟩
      refine ⟨q.2, Or.inl ⟨l0, hx, q.1, by simpa using hq⟩, ?_⟩
      simpa using congrArg Prod.snd he
  · rw [g5, l5, ws2] at hl
    cases hx : s.f.patternProperties with
    | none => rw [hx, normPropsOpt] at hl; exact absurd hl (by simp)
    | some l0 =>
      rw [hx, normPropsOpt] at hl
      have hleq : normPropList l0 = l := by simpa using hl
      rcases mem_normPropList l0 (k, c) (by rw [hleq]; exact hk) with ⟨q, hq, he⟩
      refine ⟨q.2, Or.inr (Or.inl ⟨l0, hx, q.1, by simpa using hq⟩), ?_⟩
      simpa using congrArg Prod.snd he
  · rw [g6, l6, ws3] at hl
    cases hx : s.f.additionalProperties with
    | none => rw [hx, normSchemaOrBool] at hl; exact absurd hl (by simp)
    | some v =>
      cases v with
      | inr b => rw [hx, normSchemaOrBool] at hl; exact absurd hl (by simp)
      | inl y =>
        rw [hx, normSchemaOrBool] at hl
        refine ⟨y, Or.inr (Or.inr (Or.inl hx)), ?_⟩
        simpa using hl.symm
  · rw [g7, l7, ws4] at hl
    cases hx : s.f.items with
    | none => rw [hx, normSchemaOrBool] at hl; exact absurd hl (by simp)
    | some v =>
      cases v with
      | inr b => rw [hx, normSchemaOrBool] at hl; exact absurd hl (by simp)
      | inl y =>
        rw [hx, normSchemaOrBool] at hl
        refine ⟨y, Or.inr (Or.inr (Or.inr (Or.inl hx))), ?_⟩
        simpa using hl.symm
  · rw [g8, l8, ws5] at hl
    cases hx : s.f.allOf with
    | none => rw [hx, normListOpt] at hl; exact absurd hl (by simp)
    | some l0 =>
      rw [hx, normListOpt] at hl
      have hleq : normList l0 = l := by simpa using hl
      rcases mem_normList l0 c (by rw [hleq]; exact hk) with ⟨y, hy, he⟩
      exact ⟨y, Or.inr (Or.inr (Or.inr (Or.inr (Or.inl ⟨l0, hx, hy⟩)))), he⟩
  · rw [g9, l9, ws6] at hl
    cases hx : s.f.oneOf with
    | none => rw [hx, normListOpt] at hl; exact absurd hl (by simp)
    | some l0 =>
      rw [hx, normListOpt] at hl
      have hleq : normList l0 = l := by simpa using hl
      rcases mem_normList l0 c (by rw [hleq]; exact hk) with ⟨y, hy, he⟩
      exact ⟨y, Or.inr (Or.inr (Or.inr (Or.inr (Or.inr (Or.inl ⟨l0, hx, hy⟩))))), he⟩
  · rw [g10, l10, ws7] at hl
    cases hx : s.f.anyOf with
    | none => rw [hx, normListOpt] at hl; exact absurd hl (by simp)
    | some l0 =>
      rw [hx, normListOpt] at hl
      have hleq : normList l0 = l := by simpa using hl
      rcases mem_normList l0 c (by rw [hleq]; exact hk) with ⟨y, hy, he⟩
      exact ⟨y, Or.inr (Or.inr (Or.inr (Or.inr (Or.inr (Or.inr
        (Or.inl ⟨l0, hx, hy⟩)))))), he⟩
  · rw [g11, l11, ws8] at hl
    cases hx : s.f.nots with
    | none => rw [hx, normSchemaOpt] at hl; exact absurd hl (by simp)
    | some y =>
      rw [hx, normSchemaOpt] at hl
      refine ⟨y, Or.inr (Or.inr (Or.inr (Or.inr (Or.inr (Or.inr (Or.inr hx)))))), ?_⟩
      simpa using hl.symm

lemma norm_idem_aux : ∀ (n : Nat) (s : Schema), sizeOf s < n →
    normalizeNullableSchema (normalizeNullableSchema s) = normalizeNullableSchema s := by
  intro n
  induction n with
  | zero =>
    intro s hs
    exact absurd hs (by omega)
  | succ n ih =>
    intro s hs
    by_cases href : isReferenceObject s = true
    · rw [norm_of_ref s href]
      exact norm_of_ref s href
    · have href2 : isReferenceObject s = false := by
        simpa using href
      obtain ⟨w1, w2, w3, w4, w5, w6, w7, w8⟩ := walkFields_proj s.f
      obtain ⟨l1, l2, l3, l4, l5, l6, l7, l8, l9, l10, l11, l12, l13, l14⟩ :=
        migrateLow_proj (walkFields s.f)
      obtain ⟨g1, g2, g3, g4, g5, g6, g7, g8, g9, g10, g11, g12, g13, g14⟩ :=
        migrateHigh_proj (migrateLow (walkFields s.f))
      have hnorm : normalizeNullableSchema s =
          finishNullable (Schema.mk (migrateHigh (migrateLow (walkFields s.f)))) := by
        rw [normalizeNullableSchema_eq, href2]
        simp [migrateBounds]
      have hszmk : sizeOf (Schema.mk s.f) = sizeOf s := by
        cases s
        rfl
      have hihy : ∀ y, childSchemaMem y s.f →
          normalizeNullableSchema (normalizeNullableSchema y) =
            normalizeNullableSchema y := by
        intro y hy
        have h1 := childSchemaMem_sizeOf y s.f hy
        exact ih y (by omega)
      have hfix : ∀ c, childSchemaMem c (migrateHigh (migrateLow (walkFields s.f))) →
          normalizeNullableSchema c = c := by
        intro c hc
        obtain ⟨y, hy, hcy⟩ := childSchemaMem_norm_source s c hc
        rw [hcy]
        exact hihy y hy
      have hnb1 : ∀ b, (migrateHigh (migrateLow (walkFields s.f))).exclusiveMinimum ≠
          some (Sum.inr b) := by
        intro b
        rw [g13]
        exact migrateLow_exmin_nonbool _ b
      have hnb2 : ∀ b, (migrateHigh (migrateLow (walkFields s.f))).exclusiveMaximum ≠
          some (Sum.inr b) := fun b => migrateHigh_exmax_nonbool _ b
      have hmmref : (migrateHigh (migrateLow (walkFields s.f))).ref = s.f.ref := by
        rw [g1, l1, w1]
      have hmmnull : (migrateHigh (migrateLow (walkFields s.f))).nullable =
          s.f.nullable := by
        rw [g3, l3, w3]
      have hmmtyp : (migrateHigh (migrateLow (walkFields s.f))).typ = s.f.typ := by
        rw [g2, l2, w2]
      have hmmone : (migrateHigh (migrateLow (walkFields s.f))).oneOf =
          normListOpt s.f.oneOf := by
        rw [g9, l9, (walkFields_slots s.f).2.2.2.2.2.1]
      have hmmany : (migrateHigh (migrateLow (walkFields s.f))).anyOf =
          normListOpt s.f.anyOf := by
        rw [g10, l10, (walkFields_slots s.f).2.2.2.2.2.2.1]
      have hconv : normalizeNullableSchema
          (stripNullable (Schema.mk (migrateHigh (migrateLow (walkFields s.f))))) =
          stripNullable (Schema.mk (migrateHigh (migrateLow (walkFields s.f)))) := by
        apply norm_fixed_of
        · refine (isRef_congr _ s ?_).trans href2
          exact hmmref
        · rfl
        · exact hnb1
        · exact hnb2
        · exact fun c hc => hfix c hc
      rw [hnorm]
      by_cases hnn : s.f.nullable = some true
      · by_cases hty : s.f.typ = none
        · by_cases hone : s.f.oneOf = none
          · by_cases hany : s.f.anyOf = none
            · -- wrap branch
              rw [finishNullable_wrap (Schema.mk (migrateHigh (migrateLow (walkFields s.f)))) (hmmnull.trans hnn) (hmmtyp.trans hty)
                (by rw [Schema.f, hmmone, hone]; rfl)
                (by rw [Schema.f, hmmany, hany]; rfl)]
              have hd : denotesNullType (stripNullable
                  (Schema.mk (migrateHigh (migrateLow (walkFields s.f))))) = false := by
                have hty2 : (stripNullable
                    (Schema.mk (migrateHigh (migrateLow (walkFields s.f))))).f.typ =
                    none := hmmtyp.trans hty
                simp [denotesNullType, hty2]
              have happ : appendNullOption [stripNullable
                  (Schema.mk (migrateHigh (migrateLow (walkFields s.f))))] =
                  [stripNullable (Schema.mk (migrateHigh (migrateLow (walkFields s.f)))),
                    NULL_TYPE_SCHEMA] := by
                simp [appendNullOption, hd]
              rw [happ]
              apply norm_fixed_of
              · rfl
              · rfl
              · intro b h
                simp [emptySchemaF, Schema.f] at h
              · intro b h
                simp [emptySchemaF, Schema.f] at h
              · intro c hc
                rcases hc with ⟨l, hl, k2, hk⟩ | ⟨l, hl, k2, hk⟩ | hl | hl |
                  ⟨l, hl, hk⟩ | ⟨l, hl, hk⟩ | ⟨l, hl, hk⟩ | hl
                · exact absurd hl (by simp [emptySchemaF, Schema.f])
                · exact absurd hl (by simp [emptySchemaF, Schema.f])
                · exact absurd hl (by simp [emptySchemaF, Schema.f])
                · exact absurd hl (by simp [emptySchemaF, Schema.f])
                · exact absurd hl (by simp [emptySchemaF, Schema.f])
                · exact absurd hl (by simp [emptySchemaF, Schema.f])
                · have hleq : l = [stripNullable
                      (Schema.mk (migrateHigh (migrateLow (walkFields s.f)))),
                      NULL_TYPE_SCHEMA] := by
                    have h2 : some l = some [stripNullable
                        (Schema.mk (migrateHigh (migrateLow (walkFields s.f)))),
                        NULL_TYPE_SCHEMA] := by
                      rw [← hl]
                      rfl
                    exact Option.some.inj h2
                  rw [hleq] at hk
                  rcases List.mem_cons.mp hk with hc2 | hc2
                  · rw [hc2]
                    exact hconv
                  · rw [show c = NULL_TYPE_SCHEMA by simpa using hc2]
                    exact norm_null_type_fixed
                · exact absurd hl (by simp [emptySchemaF, Schema.f])
            · -- anyOf branch
              rcases Option.ne_none_iff_exists.mp hany with ⟨l0, hl0⟩
              rw [finishNullable_anyOf (Schema.mk (migrateHigh (migrateLow (walkFields s.f)))) (normList l0) (hmmnull.trans hnn)
                (hmmtyp.trans hty)
                (by rw [Schema.f, hmmone, hone]; rfl)
                (by rw [Schema.f, hmmany, ← hl0]; rfl)]
              apply norm_fixed_of
              · refine (isRef_congr _ s ?_).trans href2
                exact hmmref
              · rfl
              · exact hnb1
              · exact hnb2
              · intro c hc
                rcases hc with h8 | h8 | h8 | h8 | h8 | h8 | ⟨l, hl, hk⟩ | h8
                · exact hfix c (Or.inl h8)
                · exact hfix c (Or.inr (Or.inl h8))
                · exact hfix c (Or.inr (Or.inr (Or.inl h8)))
                · exact hfix c (Or.inr (Or.inr (Or.inr (Or.inl h8))))
                · exact hfix c (Or.inr (Or.inr (Or.inr (Or.inr (Or.inl h8)))))
                · exact hfix c (Or.inr (Or.inr (Or.inr (Or.inr (Or.inr (Or.inl h8))))))
                · have hleq : l = appendNullOption (normList l0) := by
                    have h2 : some l = some (appendNullOption (normList l0)) := by
                      rw [← hl]
                      rfl
                    exact Option.some.inj h2
                  rw [hleq] at hk
                  rcases mem_appendNullOption _ c hk with hc2 | hc2
                  · rcases mem_normList l0 c hc2 with ⟨y, hy, he⟩
                    rw [he]
                    exact hihy y (Or.inr (Or.inr (Or.inr (Or.inr (Or.inr (Or.inr
                      (Or.inl ⟨l0, hl0.symm, hy⟩)))))))
                  · rw [hc2]
                    exact norm_null_type_fixed
                · exact hfix c (Or.inr (Or.inr (Or.inr (Or.inr (Or.inr (Or.inr
                    (Or.inr h8)))))))
          · -- oneOf branch
            rcases Option.ne_none_iff_exists.mp hone with ⟨l0, hl0⟩
            rw [finishNullable_oneOf (Schema.mk (migrateHigh (migrateLow (walkFields s.f)))) (normList l0) (hmmnull.trans hnn)
              (hmmtyp.trans hty)
              (by rw [Schema.f, hmmone, ← hl0]; rfl)]
            apply norm_fixed_of
            · refine (isRef_congr _ s ?_).trans href2
              exact hmmref
            · rfl
            · exact hnb1
            · exact hnb2
            · intro c hc
              rcases hc with h8 | h8 | h8 | h8 | h8 | ⟨l, hl, hk⟩ | h8 | h8
              · exact hfix c (Or.inl h8)
              · exact hfix c (Or.inr (Or.inl h8))
              · exact hfix c (Or.inr (Or.inr (Or.inl h8)))
              · exact hfix c (Or.inr (Or.inr (Or.inr (Or.inl h8))))
              · exact hfix c (Or.inr (Or.inr (Or.inr (Or.inr (Or.inl h8)))))
              · have hleq : l = appendNullOption (normList l0) := by
                  have h2 : some l = some (appendNullOption (normList l0)) := by
                    rw [← hl]
                    rfl
                  exact Option.some.inj h2
                rw [hleq] at hk
                rcases mem_appendNullOption _ c hk with hc2 | hc2
                · rcases mem_normList l0 c hc2 with ⟨y, hy, he⟩
                  rw [he]
                  exact hihy y (Or.inr (Or.inr (Or.inr (Or.inr (Or.inr (Or.inl
                    ⟨l0, hl0.symm, hy⟩))))))
                · rw [hc2]
                  exact norm_null_type_fixed
              · exact hfix c (Or.inr (Or.inr (Or.inr (Or.inr (Or.inr (Or.inr
                  (Or.inl h8)))))))
              · exact hfix c (Or.inr (Or.inr (Or.inr (Or.inr (Or.inr (Or.inr
                  (Or.inr h8)))))))
        · -- type branch
          rcases Option.ne_none_iff_exists.mp hty with ⟨tv, htv⟩
          rw [finishNullable_typ (Schema.mk (migrateHigh (migrateLow (walkFields s.f)))) tv (hmmnull.trans hnn)
            (by rw [Schema.f, hmmtyp, ← htv])]
          apply norm_fixed_of
          · refine (isRef_congr _ s ?_).trans href2
            exact hmmref
          · rfl
          · exact hnb1
          · exact hnb2
          · exact fun c hc => hfix c hc
      · -- not nullable
        rw [finishNullable_not_nullable _ (by
          show (migrateHigh (migrateLow (walkFields s.f))).nullable ≠ some true
          rw [hmmnull]
          exact hnn)]
        exact hconv

lemma norm_idem (s : Schema) :
    normalizeNullableSchema (normalizeNullableSchema s) = normalizeNullableSchema s :=
  norm_idem_aux (sizeOf s + 1) s (by omega)

/-- C1: the version-aware normalizer is idempotent on every slot content —
`undefined`, a Reference, or a Schema node — at every target version (at
3.1+ it normalizes once and a second run is a no-op; below 3.1 it is the
identity), and likewise on boolean-valued `items`/`additionalProperties`
slots. -/
theorem normalizer_idempotent :
    (∀ (v : Option String) (s : Option Schema),
      normalizeSchemaAtVersionOpt v (normalizeSchemaAtVersionOpt v s) =
        normalizeSchemaAtVersionOpt v s) ∧
    (∀ x : Option (Schema ⊕ Bool),
      normSchemaOrBool (normSchemaOrBool x) = normSchemaOrBool x) := by
  constructor
  · intro v so
    cases so with
    | none => rfl
    | some s =>
      rw [normalizeSchemaAtVersionOpt, normalizeSchemaAtVersionOpt]
      unfold normalizeSchemaAtVersion
      by_cases hg : isOas31OrAbove v = true
      · rw [hg]
        simp only [if_true]
        rw [norm_idem s]
      · rw [Bool.not_eq_true] at hg
        rw [hg]
        simp
  · intro x
    cases x with
    | none => rfl
    | some v =>
      cases v with
      | inr b => rfl
      | inl s =>
        rw [normSchemaOrBool, normSchemaOrBool, norm_idem s]

lemma dedupFirst_fold_nodup (l : List String) :
    ∀ acc : List String, acc.Nodup →
      (l.foldl (fun acc n => if acc.contains n then acc else acc ++ [n]) acc).Nodup := by
  induction l with
  | nil => intro acc h; exact h
  | cons n l ih =>
    intro acc h
    simp only [List.foldl_cons]
    by_cases hn : acc.contains n
    · rw [if_pos hn]
      exact ih acc h
    · rw [if_neg hn]
      refine ih _ ?_
      rw [List.nodup_append]
      refine ⟨h, List.nodup_singleton n, ?_⟩
      intro a ha
      simp only [List.mem_singleton]
      intro he
      subst he
      exact hn (by simpa using ha)

lemma dedupFirst_nodup (l : List String) : (dedupFirst l).Nodup :=
  dedupFirst_fold_nodup l [] List.nodup_nil

lemma dedupFirst_concat (l : List String) (x : String) :
    dedupFirst (l ++ [x]) =
      if (dedupFirst l).contains x then dedupFirst l else dedupFirst l ++ [x] := by
  unfold dedupFirst
  rw [List.foldl_append]
  rfl

lemma addChild_keys (gs : List (String × List String)) (p n : String) :
    (addChild gs p n).map Prod.fst =
      if (gs.map Prod.fst).contains p then gs.map Prod.fst
      else gs.map Prod.fst ++ [p] := by
  induction gs with
  | nil => simp [addChild]
  | cons hd rest ih =>
    obtain ⟨k1, l1⟩ := hd
    by_cases hk : k1 = p
    · subst hk
      simp [addChild, List.contains_cons]
    · simp only [addChild, hk, if_neg, not_false_iff, List.map_cons]
      rw [ih]
      by_cases hc : (rest.map Prod.fst).contains p
      · have hcons : (k1 :: rest.map Prod.fst).contains p = true := by
          simp only [List.contains_cons, hc, Bool.or_true]
        rw [if_pos hc, if_pos hcons]
      · have hcons : (k1 :: rest.map Prod.fst).contains p = false := by
          simp only [List.contains_cons, beq_iff_eq, Bool.or_eq_false_iff]
          refine ⟨by simpa using Ne.symm hk, by simpa using hc⟩
        rw [if_neg hc, if_neg (by rw [hcons]; exact Bool.false_ne_true)]
        simp

lemma mem_addChild_ne (gs : List (String × List String)) (p n q : String)
    (cl : List String) (hq : q ≠ p) :
    ((q, cl) ∈ addChild gs p n) ↔ (q, cl) ∈ gs := by
  induction gs with
  | nil => simp [addChild, hq]
  | cons hd rest ih =>
    obtain ⟨k1, l1⟩ := hd
    by_cases hk : k1 = p
    · subst hk
      simp only [addChild, if_pos rfl]
      constructor
      · intro h
        rcases List.mem_cons.mp h with h1 | h1
        · exact absurd (congrArg Prod.fst h1) (by simpa using hq)
        · exact List.mem_cons_of_mem _ h1
      · intro h
        rcases List.mem_cons.mp h with h1 | h1
        · exact absurd (congrArg Prod.fst h1) (by simpa using hq)
        · exact List.mem_cons_of_mem _ h1
    · simp only [addChild, hk, if_neg, not_false_iff]
      constructor
      · intro h
        rcases List.mem_cons.mp h with h1 | h1
        · exact h1 ▸ List.mem_cons_self _ _
        · exact List.mem_cons_of_mem _ (ih.mp h1)
      · intro h
        rcases List.mem_cons.mp h with h1 | h1
        · exact h1 ▸ List.mem_cons_self _ _
        · exact List.mem_cons_of_mem _ (ih.mpr h1)

lemma mem_addChild_self (gs : List (String × List String)) (p n : String)
    (cl : List String) (hnd : (gs.map Prod.fst).Nodup) :
    ((p, cl) ∈ addChild gs p n) ↔
      (∃ cl0, (p, cl0) ∈ gs ∧ cl = (if cl0.contains n then cl0 else cl0 ++ [n])) ∨
      ((∀ x, (p, x) ∉ gs) ∧ cl = [n]) := by
  induction gs with
  | nil => simp [addChild]
  | cons hd rest ih =>
    obtain ⟨k1, l1⟩ := hd
    by_cases hk : k1 = p
    · subst hk
      simp only [addChild, if_pos rfl]
      have hnotin : ∀ x, (k1, x) ∉ rest := by
        intro x hx
        rw [List.map_cons, List.nodup_cons] at hnd
        exact hnd.1 (List.mem_map.mpr ⟨(k1, x), hx, rfl⟩)
      constructor
      · intro h
        rcases List.mem_cons.mp h with h1 | h1
        · left
          refine ⟨l1, List.mem_cons_self _ _, ?_⟩
          have := congrArg Prod.snd h1
          simpa using this
        · exact absurd h1 (hnotin cl)
      · intro h
        rcases h with ⟨cl0, hcl0, he⟩ | ⟨hno, he⟩
        · rcases List.mem_cons.mp hcl0 with h1 | h1
          · have : cl0 = l1 := by
              have := congrArg Prod.snd h1
              simpa using this
            subst this
            subst he
            exact List.mem_cons_self _ _
          · exact absurd h1 (hnotin cl0)
        · exact absurd (List.mem_cons_self (k1, l1) rest) (hno l1)
    · simp only [addChild, hk, if_neg, not_false_iff]
      rw [List.map_cons, List.nodup_cons] at hnd
      constructor
      · intro h
        rcases List.mem_cons.mp h with h1 | h1
        · exact absurd (congrArg Prod.fst h1).symm hk
        · rcases (ih hnd.2).mp h1 with ⟨cl0, hcl0, he⟩ | ⟨hno, he⟩
          · exact Or.inl ⟨cl0, List.mem_cons_of_mem _ hcl0, he⟩
          · refine Or.inr ⟨?_, he⟩
            intro x hx
            rcases List.mem_cons.mp hx with h2 | h2
            · exact hk (congrArg Prod.fst h2).symm
            · exact hno x h2
      · intro h
        rcases h with ⟨cl0, hcl0, he⟩ | ⟨hno, he⟩
        · rcases List.mem_cons.mp hcl0 with h1 | h1
          · exact absurd (congrArg Prod.fst h1).symm hk
          · exact List.mem_cons_of_mem _ ((ih hnd.2).mpr (Or.inl ⟨cl0, h1, he⟩))
        · refine List.mem_cons_of_mem _ ((ih hnd.2).mpr (Or.inr ⟨?_, he⟩))
          intro x hx
          exact hno x (List.mem_cons_of_mem _ hx)

lemma childGroups_concat (tags : List TagObject) (t : TagObject) :
    childGroups (tags ++ [t]) =
      (match t.parent with
       | some p => if p = "" then childGroups tags else addChild (childGroups tags) p t.name
       | none => childGroups tags) := by
  unfold childGroups
  rw [List.foldl_append]
  rfl

lemma childrenSpec_concat (p : String) (tags : List TagObject) (t : TagObject) :
    childrenSpec p (tags ++ [t]) =
      if t.parent == some p then
        (if (childrenSpec p tags).contains t.name then childrenSpec p tags
         else childrenSpec p tags ++ [t.name])
      else childrenSpec p tags := by
  unfold childrenSpec
  rw [List.filter_append]
  by_cases ht : (t.parent == some p) = true
  · rw [if_pos ht]
    have h1 : List.filter (fun t => t.parent == some p) [t] = [t] := by
      simp [List.filter, ht]
    rw [h1, List.map_append]
    exact dedupFirst_concat _ _
  · rw [if_neg ht]
    have h1 : List.filter (fun t => t.parent == some p) [t] = [] := by
      have hb : (t.parent == some p) = false := by
        simpa using ht
      simp [List.filter, hb]
    rw [h1, List.append_nil]

lemma childGroups_char (tags : List TagObject) :
    ((childGroups tags).map Prod.fst).Nodup ∧
    ∀ p cl, ((p, cl) ∈ childGroups tags ↔
      (p ≠ "" ∧ (∃ t ∈ tags, t.parent = some p) ∧ cl = childrenSpec p tags)) := by
  induction tags using List.reverseRecOn with
  | nil =>
    constructor
    · simp [childGroups]
    · intro p cl
      simp [childGroups]
  | append_singleton tags t ih =>
    obtain ⟨ihnd, ihmem⟩ := ih
    rw [childGroups_concat]
    cases hpar : t.parent with
    | none =>
      refine ⟨ihnd, ?_⟩
      intro p cl
      rw [ihmem]
      have hspec : childrenSpec p (tags ++ [t]) = childrenSpec p tags := by
        rw [childrenSpec_concat]
        have hb : (t.parent == some p) = false := by
          simp [hpar]
        rw [hb]
        simp
      rw [hspec]
      constructor
      · rintro ⟨hp, ⟨t2, ht2, hpt⟩, hcl⟩
        exact ⟨hp, ⟨t2, List.mem_append_left _ ht2, hpt⟩, hcl⟩
      · rintro ⟨hp, ⟨t2, ht2, hpt⟩, hcl⟩
        rcases List.mem_append.mp ht2 with h2 | h2
        · exact ⟨hp, ⟨t2, h2, hpt⟩, hcl⟩
        · have : t2 = t := by simpa using h2
          subst this
          rw [hpar] at hpt
          exact absurd hpt (by simp)
    | some p0 =>
      dsimp only
      by_cases hp0 : p0 = ""
      · subst hp0
        rw [if_pos rfl]
        refine ⟨ihnd, ?_⟩
        intro p cl
        rw [ihmem]
        have hspec : childrenSpec p (tags ++ [t]) = childrenSpec p tags ∨ p = "" := by
          by_cases hpe : p = ""
          · exact Or.inr hpe
          · refine Or.inl ?_
            rw [childrenSpec_concat]
            have hb : (t.parent == some p) = false := by
              simp [hpar]
              exact fun h => absurd h.symm hpe
            rw [hb]
            simp
        constructor
        · rintro ⟨hp, ⟨t2, ht2, hpt⟩, hcl⟩
          rcases hspec with hs | hs
          · exact ⟨hp, ⟨t2, List.mem_append_left _ ht2, hpt⟩, hs ▸ hcl⟩
          · exact absurd hs hp
        · rintro ⟨hp, ⟨t2, ht2, hpt⟩, hcl⟩
          rcases hspec with hs | hs
          · rcases List.mem_append.mp ht2 with h2 | h2
            · exact ⟨hp, ⟨t2, h2, hpt⟩, by rw [hcl, hs]⟩
            · have : t2 = t := by simpa using h2
              subst this
              rw [hpar] at hpt
              exact absurd (Option.some.inj hpt).symm hp
          · exact absurd hs hp
      · simp only [hp0, if_neg, not_false_iff]
        constructor
        · rw [addChild_keys]
          by_cases hc : ((childGroups tags).map Prod.fst).contains p0
          · rw [if_pos hc]
            exact ihnd
          · rw [if_neg hc]
            rw [List.nodup_append]
            refine ⟨ihnd, List.nodup_singleton _, ?_⟩
            intro a ha
            simp only [List.mem_singleton]
            intro he
            subst he
            exact hc (by simpa using ha)
        · intro p cl
          by_cases hpq : p = p0
          · subst hpq
            rw [mem_addChild_self _ _ _ _ ihnd]
            have hspec : childrenSpec p (tags ++ [t]) =
                (if (childrenSpec p tags).contains t.name then childrenSpec p tags
                 else childrenSpec p tags ++ [t.name]) := by
              rw [childrenSpec_concat]
              have hb : (t.parent == some p) = true := by
                simp [hpar]
              rw [hb]
              simp
            by_cases hprev : ∃ t2 ∈ tags, t2.parent = some p
            · constructor
              · rintro (⟨cl0, hcl0, he⟩ | ⟨hno, he⟩)
                · have := (ihmem p cl0).mp hcl0
                  refine ⟨hp0, ⟨t, List.mem_append_right _ (by simp), hpar⟩, ?_⟩
                  rw [hspec, he, this.2.2]
                · rcases hprev with ⟨t2, ht2, hpt2⟩
                  exact absurd ((ihmem p (childrenSpec p tags)).mpr
                    ⟨hp0, ⟨t2, ht2, hpt2⟩, rfl⟩) (hno _)
              · rintro ⟨hp, hex, hcl⟩
                left
                refine ⟨childrenSpec p tags,
                  (ihmem p (childrenSpec p tags)).mpr ⟨hp0, hprev, rfl⟩, ?_⟩
                rw [hcl, hspec]
            · have hnone : ∀ x, (p, x) ∉ childGroups tags := by
                intro x hx
                exact hprev ((ihmem p x).mp hx).2.1
              have hempt : childrenSpec p tags = [] := by
                have hfil : tags.filter (fun t2 => t2.parent == some p) = [] := by
                  rw [List.filter_eq_nil_iff]
                  intro t2 ht2
                  simp only [beq_iff_eq]
                  exact fun he => hprev ⟨t2, ht2, he⟩
                rw [childrenSpec, hfil]
                rfl
              constructor
              · rintro (⟨cl0, hcl0, he⟩ | ⟨hno, he⟩)
                · exact absurd hcl0 (hnone cl0)
                · refine ⟨hp0, ⟨t, List.mem_append_right _ (by simp), hpar⟩, ?_⟩
                  rw [hspec, hempt, he]
                  rfl
              · rintro ⟨hp, hex, hcl⟩
                right
                refine ⟨hnone, ?_⟩
                rw [hcl, hspec, hempt]
                rfl
          · rw [mem_addChild_ne _ _ _ _ _ hpq, ihmem]
            have hspec : childrenSpec p (tags ++ [t]) = childrenSpec p tags := by
              rw [childrenSpec_concat]
              have hb : (t.parent == some p) = false := by
                simp [hpar]
                exact fun h => absurd h.symm hpq
              rw [hb]
              simp
            rw [hspec]
            constructor
            · rintro ⟨hp, ⟨t2, ht2, hpt⟩, hcl⟩
              exact ⟨hp, ⟨t2, List.mem_append_left _ ht2, hpt⟩, hcl⟩
            · rintro ⟨hp, ⟨t2, ht2, hpt⟩, hcl⟩
              rcases List.mem_append.mp ht2 with h2 | h2
              · exact ⟨hp, ⟨t2, h2, hpt⟩, hcl⟩
              · have : t2 = t := by simpa using h2
                subst this
                rw [hpar] at hpt
                exact absurd (Option.some.inj hpt) (Ne.symm hpq)

lemma dedup_fold_append (l : List String) :
    ∀ acc : List String, l.Nodup →
      l.foldl (fun acc c => if acc.contains c then acc else acc ++ [c]) acc =
        acc ++ l.filter (fun c => !acc.contains c) := by
  induction l with
  | nil =>
    intro acc _
    simp
  | cons c l ih =>
    intro acc hnd
    rw [List.nodup_cons] at hnd
    simp only [List.foldl_cons, List.filter_cons]
    by_cases hc : acc.contains c
    · rw [if_pos hc]
      have hb : (!acc.contains c) = false := by
        rw [hc]
        rfl
      rw [hb]
      simp only [Bool.false_eq_true, if_neg, not_false_iff]
      exact ih acc hnd.2
    · rw [if_neg hc]
      have hcf : acc.contains c = false := by
        simpa using hc
      have hb : (!acc.contains c) = true := by
        rw [hcf]
        rfl
      rw [hb]
      simp only [if_pos]
      rw [ih _ hnd.2, List.append_assoc]
      have hfc : l.filter (fun d => !(acc ++ [c]).contains d) =
          l.filter (fun d => !acc.contains d) := by
        apply List.filter_congr
        intro d hd
        have hdc : d ≠ c := fun he => hnd.1 (he ▸ hd)
        have h1 : (acc ++ [c]).contains d = acc.contains d := by
          by_cases hda : d ∈ acc
          · have e1 : acc.contains d = true := by
              simpa [List.elem_iff] using hda
            have e2 : (acc ++ [c]).contains d = true := by
              simp [List.elem_iff]
              exact Or.inl hda
            rw [e1, e2]
          · have e1 : acc.contains d = false := by
              simpa [List.elem_iff] using hda
            have e2 : (acc ++ [c]).contains d = false := by
              simp [List.elem_iff, hdc]
              exact hda
            rw [e1, e2]
        rw [h1]
      rw [hfc]
      rfl

lemma emitGroupTags_true (p : String) (cl : List String) (h : cl.Nodup) :
    emitGroupTags true p cl = p :: cl.filter (fun c => c != p) := by
  unfold emitGroupTags
  simp only [if_pos]
  rw [dedup_fold_append cl [p] h, List.singleton_append]
  congr 1
  apply List.filter_congr
  intro c hc
  show (!(([p] : List String).contains c)) = (c != p)
  cases hcp : c == p
  · simp [List.contains_cons, hcp, bne]
    simpa using hcp
  · simp [List.contains_cons, hcp, bne]
    simpa using hcp

lemma emitGroupTags_false (p : String) (cl : List String) (h : cl.Nodup) :
    emitGroupTags false p cl = cl := by
  unfold emitGroupTags
  simp only [Bool.false_eq_true, if_neg, not_false_iff]
  rw [dedup_fold_append cl [] h]
  simp

lemma addStandalones_mem (gs : List (String × List String)) (ops : List String)
    (tags : List TagObject) (x : String × List String) (hx : x ∈ gs) :
    x ∈ addStandalones gs ops tags := by
  unfold addStandalones
  induction ops generalizing gs with
  | nil => exact hx
  | cons c ops ih =>
    simp only [List.foldl_cons]
    by_cases h1 : (childNames tags).contains c
    · rw [if_pos h1]
      exact ih gs hx
    · rw [if_neg h1]
      by_cases h2 : gs.any (fun g => g.1 = c)
      · rw [if_pos h2]
        exact ih gs hx
      · rw [if_neg h2]
        exact ih _ (List.mem_append_left _ hx)

lemma addStandalones_standalone (ops : List String) (tags : List TagObject)
    (n : String) (hchild : (childNames tags).contains n = false) :
    ∀ gs : List (String × List String), ops.Nodup → n ∈ ops →
      (∀ cl, (n, cl) ∉ gs) → (n, []) ∈ addStandalones gs ops tags := by
  unfold addStandalones
  induction ops with
  | nil =>
    intro gs _ hmem _
    exact absurd hmem (List.not_mem_nil n)
  | cons c ops ih =>
    intro gs hnd hmem hkey
    rw [List.nodup_cons] at hnd
    simp only [List.foldl_cons]
    rcases List.mem_cons.mp hmem with he | hm
    · subst he
      rw [if_neg (by rw [hchild]; exact Bool.false_ne_true)]
      have hany : gs.any (fun g => g.1 = n) = false := by
        rw [List.any_eq_false]
        rintro ⟨q, cl⟩ hq
        simp only [decide_eq_true_eq]
        intro he
        subst he
        exact hkey cl hq
      rw [if_neg (by rw [hany]; exact Bool.false_ne_true)]
      have hstep : (n, ([] : List String)) ∈ gs ++ [(n, [])] :=
        List.mem_append_right _ (by simp)
      have := addStandalones_mem (gs ++ [(n, [])]) ops tags (n, []) hstep
      simpa [addStandalones] using this
    · have hcn : c ≠ n := fun he => hnd.1 (he ▸ hm)
      by_cases h1 : (childNames tags).contains c
      · rw [if_pos h1]
        exact ih gs hnd.2 hm hkey
      · rw [if_neg h1]
        by_cases h2 : gs.any (fun g => g.1 = c)
        · rw [if_pos h2]
          exact ih gs hnd.2 hm hkey
        · rw [if_neg h2]
          refine ih _ hnd.2 hm ?_
          intro cl hcl
          rcases List.mem_append.mp hcl with hin | hin
          · exact hkey cl hin
          · have h3 : (n, cl) = (c, ([] : List String)) := by
              simpa using hin
            exact hcn (congrArg Prod.fst h3).symm

/-- C9: in the derived tag-group list, every parent name `p` with at least
one child tag gets a group holding its child tag names first-seen-
deduplicated (`childrenSpec`), with `p` itself listed first whenever a tag
of that name exists (or the name is operation-referenced); and every
operation-referenced tag name with no parent that is not already a group
becomes a singleton group of itself. -/
theorem buildXTagGroups_derivation (tags : List TagObject) (ops : List String) :
    (∀ p, p ≠ "" → (∃ t ∈ tags, t.parent = some p) →
      ∃ gs, buildXTagGroups (some tags) (some ops) = some gs ∧
        XTagGroup.mk p
          (if (tags.map TagObject.name).contains p ||
              (normalizedOpNames ops).contains p
           then p :: (childrenSpec p tags).filter (fun c => c != p)
           else childrenSpec p tags) ∈ gs) ∧
    (∀ n, n ∈ normalizedOpNames ops → (childNames tags).contains n = false →
      (∀ cl, (n, cl) ∉ childGroups tags) →
      ∃ gs, buildXTagGroups (some tags) (some ops) = some gs ∧
        XTagGroup.mk n [n] ∈ gs) := by
  constructor
  · intro p hp hex
    obtain ⟨hnd, hmem⟩ := childGroups_char tags
    have hentry : (p, childrenSpec p tags) ∈ childGroups tags :=
      (hmem p _).mpr ⟨hp, hex, rfl⟩
    have hentry2 : (p, childrenSpec p tags) ∈
        addStandalones (childGroups tags) (normalizedOpNames ops) tags :=
      addStandalones_mem _ _ _ _ hentry
    have htne : tags.isEmpty = false := by
      rcases hex with ⟨t, ht, _⟩
      cases tags
      · exact absurd ht (List.not_mem_nil t)
      · rfl
    have hgsne : (addStandalones (childGroups tags)
        (normalizedOpNames ops) tags).isEmpty = false := by
      cases hq : addStandalones (childGroups tags) (normalizedOpNames ops) tags with
      | nil =>
        rw [hq] at hentry2
        exact absurd hentry2 (List.not_mem_nil _)
      | cons a l => rfl
    have hbuild : buildXTagGroups (some tags) (some ops) =
        some ((addStandalones (childGroups tags) (normalizedOpNames ops) tags).map
          (fun g => ⟨g.1, emitGroupTags ((tags.map TagObject.name).contains g.1 ||
            (normalizedOpNames ops).contains g.1) g.1 g.2⟩)) := by
      unfold buildXTagGroups
      simp only [Option.getD_some]
      rw [htne]
      simp only [Bool.false_and]
      rw [if_neg (by exact Bool.false_ne_true)]
      rw [if_neg (by rw [hgsne]; exact Bool.false_ne_true)]
    refine ⟨_, hbuild, ?_⟩
    refine List.mem_map.mpr ⟨(p, childrenSpec p tags), hentry2, ?_⟩
    have hspecnd : (childrenSpec p tags).Nodup := dedupFirst_nodup _
    cases hcond : ((tags.map TagObject.name).contains p ||
        (normalizedOpNames ops).contains p) with
    | true =>
      simp only [hcond]
      rw [emitGroupTags_true p _ hspecnd]
      simp
    | false =>
      simp only [hcond]
      rw [emitGroupTags_false p _ hspecnd]
      simp
  · intro n hn hchild hkey
    have hopnd : (normalizedOpNames ops).Nodup :=
      dedupFirst_fold_nodup _ [] List.nodup_nil
    have hstand : (n, ([] : List String)) ∈
        addStandalones (childGroups tags) (normalizedOpNames ops) tags :=
      addStandalones_standalone _ tags n hchild _ hopnd hn hkey
    have hopne : (normalizedOpNames ops).isEmpty = false := by
      cases hq : normalizedOpNames ops with
      | nil =>
        rw [hq] at hn
        exact absurd hn (List.not_mem_nil n)
      | cons a l => rfl
    have hgsne : (addStandalones (childGroups tags)
        (normalizedOpNames ops) tags).isEmpty = false := by
      cases hq : addStandalones (childGroups tags) (normalizedOpNames ops) tags with
      | nil =>
        rw [hq] at hstand
        exact absurd hstand (List.not_mem_nil _)
      | cons a l => rfl
    have hbuild : buildXTagGroups (some tags) (some ops) =
        some ((addStandalones (childGroups tags) (normalizedOpNames ops) tags).map
          (fun g => ⟨g.1, emitGroupTags ((tags.map TagObject.name).contains g.1 ||
            (normalizedOpNames ops).contains g.1) g.1 g.2⟩)) := by
      unfold buildXTagGroups
      simp only [Option.getD_some]
      rw [hopne]
      simp only [Bool.and_false]
      rw [if_neg (by exact Bool.false_ne_true)]
      rw [if_neg (by rw [hgsne]; exact Bool.false_ne_true)]
    refine ⟨_, hbuild, ?_⟩
    refine List.mem_map.mpr ⟨(n, []), hstand, ?_⟩
    have hcn : (normalizedOpNames ops).contains n = true := by
      simpa [List.elem_iff] using hn
    have hcond : ((tags.map TagObject.name).contains n ||
        (normalizedOpNames ops).contains n) = true := by
      rw [hcn, Bool.or_true]
    simp only [hcond]
    rfl

/-- Witness for `buildXTagGroups_derivation`: the spec example
(tags `P`, `C1`←`P`, `C2`←`P`) yields the group `{P, [P, C1, C2]}`, and an
operation-referenced tag `Solo` yields the singleton group `{Solo, [Solo]}`. -/
theorem buildXTagGroups_derivation_witness :
    (∃ gs, buildXTagGroups
        (some [TagObject.mk "P" none none none none none none,
               TagObject.mk "C1" none none none none (some "P") none,
               TagObject.mk "C2" none none none none (some "P") none])
        (some []) = some gs ∧
      XTagGroup.mk "P"
        (if ((["P", "C1", "C2"] : List String).contains "P" ||
            (normalizedOpNames []).contains "P")
         then "P" :: (childrenSpec "P"
            [TagObject.mk "P" none none none none none none,
             TagObject.mk "C1" none none none none (some "P") none,
             TagObject.mk "C2" none none none none (some "P") none]).filter
              (fun c => c != "P")
         else childrenSpec "P"
            [TagObject.mk "P" none none none none none none,
             TagObject.mk "C1" none none none none (some "P") none,
             TagObject.mk "C2" none none none none (some "P") none]) ∈ gs) ∧
    (∃ gs, buildXTagGroups (some []) (some ["Solo"]) = some gs ∧
      XTagGroup.mk "Solo" ["Solo"] ∈ gs) := by
  constructor
  · exact (buildXTagGroups_derivation
      [TagObject.mk "P" none none none none none none,
       TagObject.mk "C1" none none none none (some "P") none,
       TagObject.mk "C2" none none none none (some "P") none] []).1 "P"
      (by decide)
      ⟨TagObject.mk "C1" none none none none (some "P") none, by decide, rfl⟩
  · exact (buildXTagGroups_derivation [] ["Solo"]).2 "Solo"
      (by decide) (by decide) (fun cl h => absurd h (List.not_mem_nil _))
